import Mathlib

/-!
Verification of the sparse weighted-graph engine `PtGraph` from
`include/crab/common/pt_graph.hpp`.

The graph stores, per vertex slot, a successor map (destination vertex to
weight, a `patricia_tree<vert_idx, Wt>`) and a predecessor set
(a `patricia_tree_set<vert_idx>`), plus a liveness vector `is_free`, a
free-list `free_id` of recyclable slot ids, and a running `edge_count`.

The patricia-tree containers themselves are external collaborators; they are
modelled here as strictly-sorted association lists over `Nat` keys (vertex
ids are `unsigned int`, wrapped in `vert_idx` whose `index()` is the id
itself), which provides the standard membership / insert (overwriting) /
remove / ascending-iteration interface the engine relies on.  `edge_count`
(`unsigned int` in the source) is modelled as `Nat`: no operation of the
engine makes it underflow on the states the invariants describe.

C++ operations whose executions are only defined under an assertion or an
in-bounds vector access are modelled as `Option`-valued functions: `none`
is the failed assertion / out-of-range access.
-/

namespace PtGraphModel

/-- Membership via lookup, as `succ_range::mem` returns `p.lookup(v)`
converted to `bool` (present iff the optional is non-empty). -/
def mapLookup {Wt : Type} (k : Nat) : List (Nat × Wt) → Option Wt
  | [] => none
  | p :: m => if p.1 = k then some p.2 else mapLookup k m

def mapMem {Wt : Type} (k : Nat) (m : List (Nat × Wt)) : Bool :=
  (mapLookup k m).isSome

/-- Overwriting insert into a sorted association list, as
`patricia_tree::insert` binds the key to the new value. -/
def mapInsert {Wt : Type} (k : Nat) (w : Wt) : List (Nat × Wt) → List (Nat × Wt)
  | [] => [(k, w)]
  | p :: m =>
    if k < p.1 then (k, w) :: p :: m
    else if k = p.1 then (k, w) :: m
    else p :: mapInsert k w m

def mapRemove {Wt : Type} (k : Nat) (m : List (Nat × Wt)) : List (Nat × Wt) :=
  m.filter (fun p => p.1 != k)

def keys {Wt : Type} (m : List (Nat × Wt)) : List Nat :=
  m.map Prod.fst

def setMem (v : Nat) (s : List Nat) : Bool :=
  s.contains v

/-- Insert into a sorted set, as `patricia_tree_set` insertion. -/
def setAdd (v : Nat) : List Nat → List Nat
  | [] => [v]
  | x :: xs =>
    if v < x then v :: x :: xs
    else if v = x then x :: xs
    else x :: setAdd v xs

def setRemove (v : Nat) (s : List Nat) : List Nat :=
  s.filter (fun x => x != v)

/-- The caller-supplied merge policy of `update_edge` (template parameter
`Op` in the source): `apply` combines an existing weight with a new one and
`default_is_absorbing` tells whether merging into an absent edge yields
"no edge". -/
structure MergeOp (Wt : Type) where
  apply : Wt → Wt → Wt
  default_is_absorbing : Bool

/-- State of `ikos::PtGraph<Wt>`: per-slot successor maps `_succs`,
predecessor sets `_preds`, the liveness vector `is_free`, the free-list
`free_id` and the running `edge_count`. -/
structure PtGraph (Wt : Type) where
  edge_count : Nat
  _succs : List (List (Nat × Wt))
  _preds : List (List Nat)
  is_free : List Bool
  free_id : List Nat
deriving DecidableEq

namespace PtGraph

variable {Wt : Type}

/-- The default constructor `PtGraph()`. -/
def empty : PtGraph Wt :=
  { edge_count := 0, _succs := [], _preds := [], is_free := [], free_id := [] }

/-- `size()`: number of allocated slots. -/
def size (g : PtGraph Wt) : Nat :=
  g.is_free.length

/-- `is_empty()`. -/
def is_empty (g : PtGraph Wt) : Bool :=
  g.edge_count == 0

/-- `elem(x, y)`: `succs(x).mem(y)`. -/
def elem (g : PtGraph Wt) (x y : Nat) : Bool :=
  mapMem y (g._succs.getD x [])

/-- `edge_val(x, y)`: `succs(x).value(y)` is `*(p.lookup(v))` in the
source; dereferencing the empty optional is the failed debug assertion,
modelled by `none`. -/
def edge_val (g : PtGraph Wt) (x y : Nat) : Option Wt :=
  mapLookup y (g._succs.getD x [])

/-- `add_edge(x, wt, y)`: insert `y -> wt` into `x`'s successor map, `x`
into `y`'s predecessor set, and increment `edge_count`.  The unchecked
vector accesses `_succs[x]` / `_preds[y]` bound the defined domain. -/
def add_edge (g : PtGraph Wt) (x : Nat) (w : Wt) (y : Nat) : Option (PtGraph Wt) :=
  if x < g._succs.length ∧ y < g._preds.length then
    some { g with
      _succs := g._succs.set x (mapInsert y w (g._succs.getD x [])),
      _preds := g._preds.set y (setAdd x (g._preds.getD y [])),
      edge_count := g.edge_count + 1 }
  else none

/-- `set_edge(s, w, d)`: `add_edge` when the edge is absent, otherwise
overwrite the weight in place via `_succs[s].insert(vert_idx(d), w)`. -/
def set_edge (g : PtGraph Wt) (s : Nat) (w : Wt) (d : Nat) : Option (PtGraph Wt) :=
  if s < g._succs.length then
    if g.elem s d then
      some { g with _succs := g._succs.set s (mapInsert d w (g._succs.getD s [])) }
    else g.add_edge s w d
  else none

/-- `update_edge(s, w, d, op)`: merge onto an existing edge via
`op.apply`, otherwise materialize the edge unless the default is
absorbing. -/
def update_edge (g : PtGraph Wt) (s : Nat) (w : Wt) (d : Nat) (op : MergeOp Wt) :
    Option (PtGraph Wt) :=
  if s < g._succs.length then
    if g.elem s d then
      match g.edge_val s d with
      | some w0 =>
        some { g with _succs := g._succs.set s (mapInsert d (op.apply w0 w) (g._succs.getD s [])) }
      | none => none
    else
      if op.default_is_absorbing then some g
      else g.add_edge s w d
  else none

/-- `new_vertex()`: pop the back of the free-list (asserting the popped id
is in range) and mark the slot live, or append a fresh empty slot. -/
def new_vertex (g : PtGraph Wt) : Option (Nat × PtGraph Wt) :=
  match g.free_id.getLast? with
  | some v =>
    if v < g._succs.length then
      some (v, { g with free_id := g.free_id.dropLast, is_free := g.is_free.set v false })
    else none
  | none =>
    some (g.is_free.length,
      { g with
        _succs := g._succs ++ [[]],
        _preds := g._preds ++ [[]],
        is_free := g.is_free ++ [false] })

/-- First phase of `forget(v)`: `for(vert_id d : succs(v)) preds(d).remove(v);`,
iterating over the (unmodified) successor map of `v` while updating the
predecessor sets. -/
def forgetPreds1 (g : PtGraph Wt) (v : Nat) : List (List Nat) :=
  (g._succs.getD v []).foldl
    (fun ps p => ps.set p.1 (setRemove v (ps.getD p.1 []))) g._preds

/-- The value of `preds(v)` read by the second phase of `forget(v)`, after
the first phase has possibly removed a self-loop entry from it. -/
def forgetPv (g : PtGraph Wt) (v : Nat) : List Nat :=
  (forgetPreds1 g v).getD v []

/-- Second phase of `forget(v)`: after `_succs[v].clear()`, run
`for(vert_id p : preds(v)) succs(p).remove(v);`. -/
def forgetSuccs2 (g : PtGraph Wt) (v : Nat) : List (List (Nat × Wt)) :=
  (forgetPv g v).foldl
    (fun ss p => ss.set p (mapRemove v (ss.getD p []))) (g._succs.set v [])

/-- The state after a non-trivial `forget(v)`: `v` pushed on the free-list
and marked free, `edge_count` decremented by `succs(v).size()` and then by
the size of `preds(v)` as it stands after phase one, and both of `v`'s own
containers cleared. -/
def forgetRun (g : PtGraph Wt) (v : Nat) : PtGraph Wt :=
  { edge_count := g.edge_count - (g._succs.getD v []).length - (forgetPv g v).length,
    _succs := forgetSuccs2 g v,
    _preds := (forgetPreds1 g v).set v [],
    is_free := g.is_free.set v true,
    free_id := g.free_id ++ [v] }

/-- `forget(v)`: assert `v < _succs.size()`; no-op when `v` is already
free; otherwise remove every edge incident to `v` and free its slot. -/
def forget (g : PtGraph Wt) (v : Nat) : Option (PtGraph Wt) :=
  if v < g._succs.length then
    if g.is_free.getD v false then some g
    else some (forgetRun g v)
  else none

/-- `growTo(new_sz)`: push empty live slots until at least `new_sz` exist;
the function asserts that the free-list is empty, so only that case is
defined behavior. -/
def growTo (g : PtGraph Wt) (new_sz : Nat) : Option (PtGraph Wt) :=
  if g.free_id = [] then
    some { g with
      _succs := g._succs ++ List.replicate (new_sz - g.is_free.length) [],
      _preds := g._preds ++ List.replicate (new_sz - g.is_free.length) [],
      is_free := g.is_free ++ List.replicate (new_sz - g.is_free.length) false }
  else none

end PtGraph

/-- The skipping loop inside `vert_iterator::operator!=`:
`while(v < o.v && is_free[v]) ++v;` advances past free slots. -/
def skipFree (isf : List Bool) (stop v : Nat) : Nat :=
  if h : v < stop ∧ isf.getD v false then skipFree isf stop (v + 1) else v
termination_by stop - v
decreasing_by
  have := h.1
  omega

/-- One full traversal of `vert_range` from position `v` to the end marker
`stop`, desugaring the C++ range-`for` over `verts()`: the `it != end` test
first skips free slots (see `skipFree` and `vertLoop_eq_skipFree`), then
the loop dereferences, increments and repeats; a free slot is therefore
skipped and a live one yielded. -/
def vertLoop (isf : List Bool) (stop : Nat) (v : Nat) : List Nat :=
  if h : v < stop then
    if isf.getD v false then vertLoop isf stop (v + 1)
    else v :: vertLoop isf stop (v + 1)
  else []
termination_by stop - v

namespace PtGraph

variable {Wt : Type}

/-- `verts()`: traverse the `vert_range` over `is_free` from slot `0` to
`is_free.size()`. -/
def verts (g : PtGraph Wt) : List Nat :=
  vertLoop g.is_free g.is_free.length 0

/-- One replayed edge of `copy`: `ret.add_edge(s, g.edge_val(s, d), d)`,
reading the weight from the source graph. -/
def copyEdge (g : PtGraph Wt) (s d : Nat) (acc : Option (PtGraph Wt)) :
    Option (PtGraph Wt) :=
  acc.bind fun r =>
    match g.edge_val s d with
    | some w => r.add_edge s w d
    | none => none

/-- The inner loop of `copy`: `for(vert_id d : g.succs(s))`, ascending
iteration over the successor map of `s`. -/
def copyVert (g : PtGraph Wt) (s : Nat) (acc : Option (PtGraph Wt)) :
    Option (PtGraph Wt) :=
  (keys (g._succs.getD s [])).foldl (fun acc2 d => copyEdge g s d acc2) acc

/-- The static generic `copy(g)`: grow a fresh engine to `g.size()` and
replay `add_edge(s, g.edge_val(s, d), d)` for every `s` in `g.verts()` and
every `d` in `g.succs(s)`. -/
def copy (g : PtGraph Wt) : Option (PtGraph Wt) :=
  match PtGraph.growTo PtGraph.empty g.size with
  | none => none
  | some r0 => g.verts.foldl (fun acc s => copyVert g s acc) (some r0)

/-- A live, in-range vertex id.  The data model requires that a forgotten
id is not used as an argument of any edge operation until reallocated. -/
def liveAt (g : PtGraph Wt) (v : Nat) : Prop :=
  v < g.is_free.length ∧ g.is_free.getD v false = false

instance (g : PtGraph Wt) (v : Nat) : Decidable (g.liveAt v) := by
  rw [liveAt]
  infer_instance

end PtGraph

/-- The public mutation alphabet of the engine. -/
inductive Op (Wt : Type) where
  | newV : Op Wt
  | grow (n : Nat) : Op Wt
  | add (x : Nat) (w : Wt) (y : Nat) : Op Wt
  | setE (x : Nat) (w : Wt) (y : Nat) : Op Wt
  | update (x : Nat) (w : Wt) (y : Nat) (op : MergeOp Wt) : Op Wt
  | forget (v : Nat) : Op Wt

namespace PtGraph

variable {Wt : Type}

/-- One public operation applied under the documented API contract: the
edge mutations take live endpoint ids (the data model forbids passing a
forgotten id), and `add_edge` additionally assumes the edge absent
("Assumption: (x, y) not in mtx"); `forget`, `new_vertex` and `growTo`
carry only their own assertions. -/
def step (o : Op Wt) (g : PtGraph Wt) : Option (PtGraph Wt) :=
  match o with
  | .newV => (g.new_vertex).map Prod.snd
  | .grow n => g.growTo n
  | .add x w y =>
    if g.liveAt x ∧ g.liveAt y ∧ g.elem x y = false then g.add_edge x w y else none
  | .setE x w y =>
    if g.liveAt x ∧ g.liveAt y then g.set_edge x w y else none
  | .update x w y op =>
    if g.liveAt x ∧ g.liveAt y then g.update_edge x w y op else none
  | .forget v => g.forget v

/-- States reachable from the empty graph by finite sequences of public
operations. -/
inductive Reachable : PtGraph Wt → Prop where
  | init : Reachable PtGraph.empty
  | next {g g' : PtGraph Wt} (o : Op Wt) :
      Reachable g → step o g = some g' → Reachable g'

/-- The representation invariant maintained by the engine: per-slot maps are
strictly sorted with in-range keys, free slots carry no adjacency, successor
and predecessor views agree on edge existence (I1), and `edge_count` is the
total size of the successor maps (I2). -/
structure WF (g : PtGraph Wt) : Prop where
  len_s : g._succs.length = g.is_free.length
  len_p : g._preds.length = g.is_free.length
  sorted_s : ∀ x, (keys (g._succs.getD x [])).Pairwise (· < ·)
  sorted_p : ∀ y, (g._preds.getD y []).Pairwise (· < ·)
  bound_s : ∀ x d, d ∈ keys (g._succs.getD x []) → d < g.is_free.length
  bound_p : ∀ y p, p ∈ g._preds.getD y [] → p < g.is_free.length
  free_s : ∀ v, g.is_free.getD v false = true → g._succs.getD v [] = []
  free_p : ∀ v, g.is_free.getD v false = true → g._preds.getD v [] = []
  sym : ∀ x y, y ∈ keys (g._succs.getD x []) ↔ x ∈ g._preds.getD y []
  count : g.edge_count = (g._succs.map List.length).sum

end PtGraph

/-- Three concrete states used to exercise the theorems: two live slots
(the state after `growTo(2)` from empty)... -/
def gTwo : PtGraph Nat :=
  { edge_count := 0, _succs := [[], []], _preds := [[], []],
    is_free := [false, false], free_id := [] }

/-- ... `gTwo` after `add_edge(0, 5, 1)` ... -/
def gEdge : PtGraph Nat :=
  { edge_count := 1, _succs := [[(1, 5)], []], _preds := [[], [0]],
    is_free := [false, false], free_id := [] }

/-- ... and a single live slot carrying the self-loop `0 -(7)-> 0`. -/
def gLoop : PtGraph Nat :=
  { edge_count := 1, _succs := [[(0, 7)]], _preds := [[0]],
    is_free := [false], free_id := [] }

/-- The state `forget(0)` produces from `gLoop`. -/
def gLoopF : PtGraph Nat :=
  { edge_count := 0, _succs := [[]], _preds := [[]],
    is_free := [true], free_id := [0] }

/-! Basic list-indexing helper lemmas. -/

section ListHelpers

variable {α : Type}

theorem getD_set_self (l : List α) (i : Nat) (a d : α) (h : i < l.length) :
    (l.set i a).getD i d = a := by
  rw [List.getD_eq_getElem?_getD]
  simp [List.getElem?_set_self', h]

theorem getD_set_ne (l : List α) (i j : Nat) (a d : α) (h : i ≠ j) :
    (l.set i a).getD j d = l.getD j d := by
  rw [List.getD_eq_getElem?_getD, List.getD_eq_getElem?_getD, List.getElem?_set_ne h]

theorem getD_set (l : List α) (i j : Nat) (a d : α) (hi : i < l.length) :
    (l.set i a).getD j d = if j = i then a else l.getD j d := by
  by_cases hj : j = i
  · subst hj
    rw [if_pos rfl, getD_set_self _ _ _ _ hi]
  · rw [if_neg hj, getD_set_ne _ _ _ _ _ (fun h => hj h.symm)]

theorem getD_append_left (l1 l2 : List α) (i : Nat) (d : α) (h : i < l1.length) :
    (l1 ++ l2).getD i d = l1.getD i d := by
  rw [List.getD_eq_getElem?_getD, List.getD_eq_getElem?_getD, List.getElem?_append]
  simp [h]

theorem getD_append_replicate (l : List α) (k : Nat) (a : α) (i : Nat) (d : α) :
    (l ++ List.replicate k a).getD i d =
      if i < l.length then l.getD i d
      else if i < l.length + k then a else d := by
  by_cases h1 : i < l.length
  · rw [if_pos h1, getD_append_left _ _ _ _ h1]
  · rw [if_neg h1, List.getD_eq_getElem?_getD, List.getElem?_append]
    rw [if_neg (by omega)]
    by_cases h2 : i < l.length + k
    · rw [if_pos h2, List.getElem?_replicate, if_pos (by omega)]
      rfl
    · rw [if_neg h2, List.getElem?_replicate, if_neg (by omega)]
      rfl

theorem getD_ge_length (l : List α) (i : Nat) (d : α) (h : l.length ≤ i) :
    l.getD i d = d := by
  rw [List.getD_eq_getElem?_getD, List.getElem?_eq_none (by omega)]
  rfl

theorem getD_append_singleton_self (l : List α) (a d : α) :
    (l ++ [a]).getD l.length d = a := by
  rw [List.getD_eq_getElem?_getD, List.getElem?_append_right (Nat.le_refl _)]
  simp

end ListHelpers

/-! Lemmas about the association-list containers. -/

section ContainerLemmas

variable {Wt : Type}

theorem mapMem_iff (k : Nat) (m : List (Nat × Wt)) :
    mapMem k m = true ↔ k ∈ keys m := by
  induction m with
  | nil => simp [mapMem, mapLookup, keys]
  | cons p m ih =>
    by_cases h : p.1 = k
    · simp [mapMem, mapLookup, h, keys]
    · simp only [mapMem, mapLookup, if_neg h, keys, List.map_cons, List.mem_cons]
      rw [mapMem] at ih
      rw [ih]
      constructor
      · exact Or.inr
      · rintro (h1 | h1)
        · exact absurd h1.symm h
        · exact h1

theorem mapMem_eq_false_iff (k : Nat) (m : List (Nat × Wt)) :
    mapMem k m = false ↔ k ∉ keys m := by
  rw [← mapMem_iff]
  cases mapMem k m <;> simp

theorem mapLookup_eq_none_iff (k : Nat) (m : List (Nat × Wt)) :
    mapLookup k m = none ↔ k ∉ keys m := by
  rw [← mapMem_eq_false_iff, mapMem]
  cases mapLookup k m <;> simp

theorem mapLookup_mapInsert_self (k : Nat) (w : Wt) (m : List (Nat × Wt)) :
    mapLookup k (mapInsert k w m) = some w := by
  induction m with
  | nil => simp [mapInsert, mapLookup]
  | cons p m ih =>
    rw [mapInsert]
    by_cases h1 : k < p.1
    · simp [mapLookup, h1]
    · rw [if_neg h1]
      by_cases h2 : k = p.1
      · simp [mapLookup, h2]
      · rw [if_neg h2, mapLookup, if_neg (fun h => h2 h.symm)]
        exact ih

theorem mapLookup_mapInsert_ne (j k : Nat) (w : Wt) (m : List (Nat × Wt)) (h : j ≠ k) :
    mapLookup j (mapInsert k w m) = mapLookup j m := by
  induction m with
  | nil =>
    simp only [mapInsert, mapLookup]
    rw [if_neg (fun hh => h hh.symm)]
  | cons p m ih =>
    rw [mapInsert]
    by_cases h1 : k < p.1
    · rw [if_pos h1, mapLookup, if_neg (fun hh => h hh.symm)]
    · rw [if_neg h1]
      by_cases h2 : k = p.1
      · rw [if_pos h2, mapLookup, if_neg (by omega), mapLookup, if_neg (by omega)]
      · rw [if_neg h2, mapLookup, mapLookup]
        by_cases h3 : p.1 = j
        · rw [if_pos h3, if_pos h3]
        · rw [if_neg h3, if_neg h3]
          exact ih

theorem mem_keys_mapInsert (x k : Nat) (w : Wt) (m : List (Nat × Wt)) :
    x ∈ keys (mapInsert k w m) ↔ x = k ∨ x ∈ keys m := by
  induction m with
  | nil => simp [mapInsert, keys]
  | cons p m ih =>
    rw [mapInsert]
    by_cases h1 : k < p.1
    · rw [if_pos h1]
      simp only [keys, List.map_cons, List.mem_cons]
    · rw [if_neg h1]
      by_cases h2 : k = p.1
      · rw [if_pos h2]
        simp only [keys, List.map_cons, List.mem_cons]
        rw [h2]
        tauto
      · rw [if_neg h2]
        simp only [keys, List.map_cons, List.mem_cons] at ih ⊢
        rw [ih]
        tauto

theorem length_mapInsert_of_not_mem (k : Nat) (w : Wt) (m : List (Nat × Wt))
    (h : k ∉ keys m) : (mapInsert k w m).length = m.length + 1 := by
  induction m with
  | nil => simp [mapInsert]
  | cons p m ih =>
    simp only [keys, List.map_cons, List.mem_cons] at h
    push_neg at h
    rw [mapInsert]
    by_cases h1 : k < p.1
    · rw [if_pos h1]
      simp
    · rw [if_neg h1, if_neg h.1]
      simp only [List.length_cons]
      rw [ih h.2]

theorem nodup_of_pairwise_lt (l : List Nat) (hs : l.Pairwise (· < ·)) : l.Nodup :=
  hs.imp Nat.ne_of_lt

theorem keys_nil : keys ([] : List (Nat × Wt)) = [] := rfl

theorem length_mapInsert_of_mem (k : Nat) (w : Wt) (m : List (Nat × Wt))
    (hs : (keys m).Pairwise (· < ·)) (h : k ∈ keys m) :
    (mapInsert k w m).length = m.length := by
  induction m with
  | nil => simp [keys] at h
  | cons p m ih =>
    simp only [keys, List.map_cons, List.pairwise_cons] at hs
    simp only [keys, List.map_cons, List.mem_cons] at h
    rw [mapInsert]
    by_cases h1 : k < p.1
    · exfalso
      rcases h with h | h
      · omega
      · have := hs.1 k h
        omega
    · rw [if_neg h1]
      by_cases h2 : k = p.1
      · rw [if_pos h2]
        simp
      · rw [if_neg h2]
        simp only [List.length_cons]
        rcases h with h | h
        · exact absurd h h2
        · rw [ih hs.2 h]

theorem pairwise_keys_mapInsert (k : Nat) (w : Wt) (m : List (Nat × Wt))
    (hs : (keys m).Pairwise (· < ·)) :
    (keys (mapInsert k w m)).Pairwise (· < ·) := by
  induction m with
  | nil => simp [mapInsert, keys]
  | cons p m ih =>
    simp only [keys, List.map_cons, List.pairwise_cons] at hs
    rw [mapInsert]
    by_cases h1 : k < p.1
    · rw [if_pos h1]
      simp only [keys, List.map_cons, List.pairwise_cons]
      refine ⟨?_, hs.1, hs.2⟩
      intro y hy
      rcases List.mem_cons.mp hy with h | h
      · omega
      · have := hs.1 y h
        omega
    · rw [if_neg h1]
      by_cases h2 : k = p.1
      · rw [if_pos h2]
        simp only [keys, List.map_cons, List.pairwise_cons]
        subst h2
        exact hs
      · rw [if_neg h2]
        simp only [keys, List.map_cons, List.pairwise_cons]
        constructor
        · intro y hy
          rcases (mem_keys_mapInsert y k w m).mp hy with h | h
          · omega
          · exact hs.1 y h
        · exact ih hs.2

theorem mem_keys_mapRemove (x k : Nat) (m : List (Nat × Wt)) :
    x ∈ keys (mapRemove k m) ↔ x ∈ keys m ∧ x ≠ k := by
  simp only [mapRemove, keys, List.mem_map, List.mem_filter, bne_iff_ne, ne_eq]
  constructor
  · rintro ⟨p, ⟨hp, hpk⟩, rfl⟩
    exact ⟨⟨p, hp, rfl⟩, hpk⟩
  · rintro ⟨⟨p, hp, rfl⟩, hxk⟩
    exact ⟨p, ⟨hp, hxk⟩, rfl⟩

theorem pairwise_keys_mapRemove (k : Nat) (m : List (Nat × Wt))
    (hs : (keys m).Pairwise (· < ·)) :
    (keys (mapRemove k m)).Pairwise (· < ·) :=
  hs.sublist (List.Sublist.map Prod.fst (List.filter_sublist m))

theorem mapLookup_mapRemove_self (k : Nat) (m : List (Nat × Wt)) :
    mapLookup k (mapRemove k m) = none := by
  rw [mapLookup_eq_none_iff, mem_keys_mapRemove]
  simp

theorem mapLookup_mapRemove_ne (j k : Nat) (m : List (Nat × Wt)) (h : j ≠ k) :
    mapLookup j (mapRemove k m) = mapLookup j m := by
  induction m with
  | nil => simp [mapRemove]
  | cons p m ih =>
    rw [mapRemove, List.filter_cons]
    by_cases h1 : p.1 = k
    · rw [if_neg (by simp [h1])]
      rw [mapRemove] at ih
      rw [ih, mapLookup, if_neg (by omega)]
    · rw [if_pos (by simp [h1])]
      rw [mapLookup, mapLookup]
      by_cases h2 : p.1 = j
      · rw [if_pos h2, if_pos h2]
      · rw [if_neg h2, if_neg h2]
        exact ih

theorem mapRemove_of_not_mem (k : Nat) (m : List (Nat × Wt)) (h : k ∉ keys m) :
    mapRemove k m = m := by
  refine List.filter_eq_self.mpr ?_
  intro p hp
  simp only [bne_iff_ne, ne_eq]
  intro hq
  exact h (hq ▸ List.mem_map_of_mem Prod.fst hp)

theorem length_mapRemove_add_one (k : Nat) (m : List (Nat × Wt))
    (hnd : (keys m).Nodup) (h : k ∈ keys m) :
    (mapRemove k m).length + 1 = m.length := by
  induction m with
  | nil => simp [keys] at h
  | cons p m ih =>
    simp only [keys, List.map_cons, List.nodup_cons] at hnd
    simp only [keys, List.map_cons, List.mem_cons] at h
    rw [mapRemove, List.filter_cons]
    by_cases h1 : p.1 = k
    · rw [if_neg (by simp [h1])]
      have hk : k ∉ keys m := h1 ▸ hnd.1
      have := mapRemove_of_not_mem k m hk
      rw [mapRemove] at this
      rw [this]
      simp
    · rw [if_pos (by simp [h1])]
      simp only [List.length_cons]
      rw [mapRemove] at ih
      rw [← ih hnd.2 (by tauto)]

theorem mem_setAdd (x v : Nat) (s : List Nat) :
    x ∈ setAdd v s ↔ x = v ∨ x ∈ s := by
  induction s with
  | nil => simp [setAdd]
  | cons y s ih =>
    rw [setAdd]
    by_cases h1 : v < y
    · rw [if_pos h1]
      simp
    · rw [if_neg h1]
      by_cases h2 : v = y
      · rw [if_pos h2]
        simp only [List.mem_cons]
        rw [h2]
        tauto
      · rw [if_neg h2]
        simp only [List.mem_cons]
        rw [ih]
        tauto

theorem pairwise_setAdd (v : Nat) (s : List Nat) (hs : s.Pairwise (· < ·)) :
    (setAdd v s).Pairwise (· < ·) := by
  induction s with
  | nil => simp [setAdd]
  | cons y s ih =>
    rw [List.pairwise_cons] at hs
    rw [setAdd]
    by_cases h1 : v < y
    · rw [if_pos h1, List.pairwise_cons]
      constructor
      · intro z hz
        rcases List.mem_cons.mp hz with h | h
        · omega
        · have := hs.1 z h
          omega
      · rw [List.pairwise_cons]
        exact hs
    · rw [if_neg h1]
      by_cases h2 : v = y
      · rw [if_pos h2, List.pairwise_cons]
        exact hs
      · rw [if_neg h2, List.pairwise_cons]
        constructor
        · intro z hz
          rcases (mem_setAdd z v s).mp hz with h | h
          · omega
          · exact hs.1 z h
        · exact ih hs.2

theorem setAdd_of_mem_sorted (v : Nat) (s : List Nat) (hs : s.Pairwise (· < ·))
    (h : v ∈ s) : setAdd v s = s := by
  induction s with
  | nil => simp at h
  | cons y s ih =>
    rw [List.pairwise_cons] at hs
    rw [setAdd]
    by_cases h1 : v < y
    · exfalso
      rcases List.mem_cons.mp h with hh | hh
      · omega
      · have := hs.1 v hh
        omega
    · rw [if_neg h1]
      by_cases h2 : v = y
      · rw [if_pos h2]
      · rw [if_neg h2]
        have hv : v ∈ s := by
          rcases List.mem_cons.mp h with hh | hh
          · exact absurd hh h2
          · exact hh
        rw [ih hs.2 hv]

theorem length_setAdd_of_not_mem (v : Nat) (s : List Nat) (h : v ∉ s) :
    (setAdd v s).length = s.length + 1 := by
  induction s with
  | nil => simp [setAdd]
  | cons y s ih =>
    simp only [List.mem_cons] at h
    push_neg at h
    rw [setAdd]
    by_cases h1 : v < y
    · rw [if_pos h1]
      simp
    · rw [if_neg h1, if_neg h.1]
      simp only [List.length_cons]
      rw [ih h.2]

theorem mem_setRemove (x v : Nat) (s : List Nat) :
    x ∈ setRemove v s ↔ x ∈ s ∧ x ≠ v := by
  simp [setRemove, List.mem_filter]

theorem pairwise_setRemove (v : Nat) (s : List Nat) (hs : s.Pairwise (· < ·)) :
    (setRemove v s).Pairwise (· < ·) :=
  hs.sublist (List.filter_sublist s)

theorem setRemove_of_not_mem (v : Nat) (s : List Nat) (h : v ∉ s) :
    setRemove v s = s := by
  refine List.filter_eq_self.mpr ?_
  intro x hx
  simp only [bne_iff_ne, ne_eq]
  intro hq
  exact h (hq ▸ hx)

theorem length_setRemove_add_one (v : Nat) (s : List Nat)
    (hnd : s.Nodup) (h : v ∈ s) :
    (setRemove v s).length + 1 = s.length := by
  induction s with
  | nil => simp at h
  | cons y s ih =>
    rw [List.nodup_cons] at hnd
    rw [setRemove, List.filter_cons]
    by_cases h1 : y = v
    · rw [if_neg (by simp [h1])]
      have hv : v ∉ s := h1 ▸ hnd.1
      have := setRemove_of_not_mem v s hv
      rw [setRemove] at this
      rw [this]
      simp
    · rw [if_pos (by simp [h1])]
      simp only [List.length_cons]
      have hv : v ∈ s := by
        rcases List.mem_cons.mp h with hh | hh
        · exact absurd hh.symm h1
        · exact hh
      rw [setRemove] at ih
      rw [← ih hnd.2 hv]

theorem setMem_iff (v : Nat) (s : List Nat) : setMem v s = true ↔ v ∈ s := by
  simp [setMem]

end ContainerLemmas

/-! Summation and fold helper lemmas. -/

section SumFold

theorem sum_map_set {α : Type} (f : α → Nat) (l : List α) (i : Nat) (a d : α)
    (h : i < l.length) :
    ((l.set i a).map f).sum + f (l.getD i d) = (l.map f).sum + f a := by
  induction l generalizing i with
  | nil => simp at h
  | cons x l ih =>
    cases i with
    | zero =>
      simp only [List.set_cons_zero, List.map_cons, List.sum_cons, List.getD_cons_zero]
      omega
    | succ i =>
      simp only [List.set_cons_succ, List.map_cons, List.sum_cons, List.getD_cons_succ]
      have := ih i (by simpa using Nat.lt_of_succ_lt_succ h)
      omega

theorem sum_map_eq_finset_sum {α : Type} (l : List α) (f : α → Nat) (d : α) :
    (l.map f).sum = ∑ i in Finset.range l.length, f (l.getD i d) := by
  induction l with
  | nil => simp
  | cons x l ih =>
    rw [List.map_cons, List.sum_cons, List.length_cons, Finset.sum_range_succ']
    simp only [List.getD_cons_succ, List.getD_cons_zero]
    rw [← ih]
    omega

theorem list_range_map_sum (n : Nat) (f : Nat → Nat) :
    ((List.range n).map f).sum = ∑ i in Finset.range n, f i := by
  induction n with
  | zero => simp
  | succ n ih =>
    have hr : List.range (n + 1) = List.range n ++ [n] := by
      simpa using List.range_succ n
    rw [hr, List.map_append, List.sum_append, Finset.sum_range_succ, ih]
    simp

theorem length_eq_sum_indicator (s : List Nat) (n : Nat) (hnd : s.Nodup)
    (hb : ∀ a ∈ s, a < n) :
    s.length = ∑ y in Finset.range n, if y ∈ s then 1 else 0 := by
  classical
  have h1 : (Finset.range n).filter (· ∈ s) = s.toFinset := by
    ext a
    simp only [Finset.mem_filter, List.mem_toFinset, Finset.mem_range]
    constructor
    · exact fun h => h.2
    · exact fun h => ⟨hb a h, h⟩
  calc s.length = s.toFinset.card := (List.toFinset_card_of_nodup hnd).symm
    _ = ((Finset.range n).filter (· ∈ s)).card := by rw [h1]
    _ = ∑ y in Finset.range n, if y ∈ s then 1 else 0 := Finset.card_filter _ _

theorem foldl_set_length {α : Type} (f : List α → List α) (ds : List Nat) :
    ∀ (ps : List (List α)),
      (ds.foldl (fun acc d => acc.set d (f (acc.getD d []))) ps).length = ps.length := by
  induction ds with
  | nil => intro ps; rfl
  | cons d ds ih =>
    intro ps
    rw [List.foldl_cons, ih, List.length_set]

theorem foldl_set_getD {α : Type} (f : List α → List α) (ds : List Nat) (hnd : ds.Nodup) :
    ∀ (ps : List (List α)), (∀ d ∈ ds, d < ps.length) → ∀ (j : Nat),
      (ds.foldl (fun acc d => acc.set d (f (acc.getD d []))) ps).getD j [] =
        if j ∈ ds then f (ps.getD j []) else ps.getD j [] := by
  induction ds with
  | nil =>
    intro ps _ j
    simp
  | cons d ds ih =>
    intro ps hb j
    rw [List.nodup_cons] at hnd
    rw [List.foldl_cons]
    have hd : d < ps.length := hb d (List.mem_cons_self d ds)
    have hb1 : ∀ d1 ∈ ds, d1 < (ps.set d (f (ps.getD d []))).length := by
      intro d1 hd1
      rw [List.length_set]
      exact hb d1 (List.mem_cons_of_mem d hd1)
    rw [ih hnd.2 _ hb1 j]
    by_cases hj : j ∈ ds
    · rw [if_pos hj, if_pos (List.mem_cons_of_mem d hj)]
      have hjd : j ≠ d := fun h => hnd.1 (h ▸ hj)
      rw [getD_set_ne _ _ _ _ _ (fun h => hjd h.symm)]
    · rw [if_neg hj, getD_set _ _ _ _ _ hd]
      by_cases hjd : j = d
      · rw [if_pos hjd, if_pos (by rw [hjd]; exact List.mem_cons_self d ds)]
        rw [hjd]
      · rw [if_neg hjd, if_neg (by simp [hjd, hj])]

theorem foldl_set_sum {α : Type} (f : List α → List α) (ds : List Nat) (hnd : ds.Nodup) :
    ∀ (ps : List (List α)), (∀ d ∈ ds, d < ps.length) →
      (∀ d ∈ ds, (f (ps.getD d [])).length + 1 = (ps.getD d []).length) →
      ((ds.foldl (fun acc d => acc.set d (f (acc.getD d []))) ps).map List.length).sum
        + ds.length = (ps.map List.length).sum := by
  induction ds with
  | nil =>
    intro ps _ _
    simp
  | cons d ds ih =>
    intro ps hb hlen
    rw [List.nodup_cons] at hnd
    rw [List.foldl_cons]
    have hd : d < ps.length := hb d (List.mem_cons_self d ds)
    have hb1 : ∀ d1 ∈ ds, d1 < (ps.set d (f (ps.getD d []))).length := by
      intro d1 hd1
      rw [List.length_set]
      exact hb d1 (List.mem_cons_of_mem d hd1)
    have hlen1 : ∀ d1 ∈ ds,
        (f ((ps.set d (f (ps.getD d []))).getD d1 [])).length + 1 =
          ((ps.set d (f (ps.getD d []))).getD d1 []).length := by
      intro d1 hd1
      have hjd : d1 ≠ d := fun h => hnd.1 (h ▸ hd1)
      rw [getD_set_ne _ _ _ _ _ (fun h => hjd h.symm)]
      exact hlen d1 (List.mem_cons_of_mem d hd1)
    have hih := ih hnd.2 (ps.set d (f (ps.getD d []))) hb1 hlen1
    have hsum := sum_map_set List.length ps d (f (ps.getD d [])) [] hd
    have hflen := hlen d (List.mem_cons_self d ds)
    simp only [List.length_cons]
    omega

end SumFold

/-! Characterization of the vertex iteration. -/

section VertsLemmas

theorem vertLoop_eq_skipFree (isf : List Bool) (stop v : Nat) :
    vertLoop isf stop v =
      (if skipFree isf stop v < stop then
        skipFree isf stop v :: vertLoop isf stop (skipFree isf stop v + 1)
      else []) := by
  by_cases h : v < stop
  · by_cases hf : isf.getD v false = true
    · have hs : skipFree isf stop v = skipFree isf stop (v + 1) := by
        conv_lhs => rw [skipFree]
        rw [dif_pos ⟨h, hf⟩]
      have hvl : vertLoop isf stop v = vertLoop isf stop (v + 1) := by
        conv_lhs => rw [vertLoop]
        rw [dif_pos h, if_pos hf]
      rw [hvl, vertLoop_eq_skipFree isf stop (v + 1), hs]
    · have hs : skipFree isf stop v = v := by
        rw [skipFree]
        rw [dif_neg (fun hc => hf hc.2)]
      conv_lhs => rw [vertLoop]
      rw [dif_pos h, if_neg hf, hs, if_pos h]
  · have hs : skipFree isf stop v = v := by
      rw [skipFree]
      rw [dif_neg (fun hc => h hc.1)]
    conv_lhs => rw [vertLoop]
    rw [dif_neg h, hs, if_neg h]
termination_by stop - v
decreasing_by omega

theorem vertLoop_eq_filter (isf : List Bool) (stop v : Nat) :
    vertLoop isf stop v =
      (List.range' v (stop - v)).filter (fun i => !(isf.getD i false)) := by
  by_cases h : v < stop
  · have hsplit : stop - v = (stop - (v + 1)) + 1 := by omega
    have hrec := vertLoop_eq_filter isf stop (v + 1)
    by_cases hf : isf.getD v false = true
    · conv_lhs => rw [vertLoop]
      rw [dif_pos h, if_pos hf, hrec, hsplit,
        List.range'_succ v (stop - (v + 1)) 1, List.filter_cons]
      rw [if_neg (by rw [hf]; simp)]
    · have hf2 : isf.getD v false = false := by
        revert hf
        cases isf.getD v false <;> simp
      conv_lhs => rw [vertLoop]
      rw [dif_pos h, if_neg hf, hrec, hsplit,
        List.range'_succ v (stop - (v + 1)) 1, List.filter_cons]
      rw [if_pos (by rw [hf2]; rfl)]
  · conv_lhs => rw [vertLoop]
    rw [dif_neg h]
    have hz : stop - v = 0 := by omega
    rw [hz]
    rfl
termination_by stop - v
decreasing_by omega

namespace PtGraph

variable {Wt : Type}

theorem verts_eq_filter (g : PtGraph Wt) :
    g.verts = (List.range g.is_free.length).filter (fun i => !(g.is_free.getD i false)) := by
  rw [verts, vertLoop_eq_filter, List.range_eq_range']
  simp

theorem mem_verts (g : PtGraph Wt) (v : Nat) :
    v ∈ g.verts ↔ v < g.is_free.length ∧ g.is_free.getD v false = false := by
  rw [verts_eq_filter, List.mem_filter, List.mem_range]
  simp

theorem pairwise_verts (g : PtGraph Wt) : g.verts.Pairwise (· < ·) := by
  rw [verts_eq_filter]
  exact (List.pairwise_lt_range _).sublist (List.filter_sublist _)

theorem nodup_verts (g : PtGraph Wt) : g.verts.Nodup :=
  nodup_of_pairwise_lt _ (g.pairwise_verts)

end PtGraph

end VertsLemmas

theorem getD_append_default {α : Type} (l : List α) (d : α) (k i : Nat) :
    (l ++ List.replicate k d).getD i d = l.getD i d := by
  rw [getD_append_replicate]
  by_cases h1 : i < l.length
  · rw [if_pos h1]
  · rw [if_neg h1, getD_ge_length l i d (by omega)]
    by_cases h2 : i < l.length + k
    · rw [if_pos h2]
    · rw [if_neg h2]

namespace PtGraph

variable {Wt : Type}

theorem wf_empty : WF (PtGraph.empty : PtGraph Wt) := by
  constructor <;> simp [empty, keys]

theorem wf_new_vertex (g : PtGraph Wt) (hwf : WF g) (v : Nat) (g' : PtGraph Wt)
    (h : g.new_vertex = some (v, g')) : WF g' := by
  rw [new_vertex] at h
  split at h
  case _ v0 hl =>
    by_cases hv0 : v0 < g._succs.length
    · rw [if_pos hv0] at h
      have hg : g' = { g with free_id := g.free_id.dropLast,
                              is_free := g.is_free.set v0 false } := by
        cases h
        rfl
      subst hg
      have hv0f : v0 < g.is_free.length := hwf.len_s ▸ hv0
      refine ⟨?_, ?_, hwf.sorted_s, hwf.sorted_p, ?_, ?_, ?_, ?_, hwf.sym, hwf.count⟩
      · simp [List.length_set, hwf.len_s]
      · simp [List.length_set, hwf.len_p]
      · simpa [List.length_set] using hwf.bound_s
      · simpa [List.length_set] using hwf.bound_p
      · intro z hz
        by_cases hzv : z = v0
        · subst hzv
          rw [getD_set_self _ _ _ _ hv0f] at hz
          exact absurd hz (by simp)
        · rw [getD_set_ne _ _ _ _ _ (fun hh => hzv hh.symm)] at hz
          exact hwf.free_s z hz
      · intro z hz
        by_cases hzv : z = v0
        · subst hzv
          rw [getD_set_self _ _ _ _ hv0f] at hz
          exact absurd hz (by simp)
        · rw [getD_set_ne _ _ _ _ _ (fun hh => hzv hh.symm)] at hz
          exact hwf.free_p z hz
    · rw [if_neg hv0] at h
      exact absurd h (by simp)
  case _ hl =>
    have hg : g' = { g with _succs := g._succs ++ [[]], _preds := g._preds ++ [[]],
                            is_free := g.is_free ++ [false] } := by
      cases h
      rfl
    subst hg
    have hss : ∀ x, (g._succs ++ [[]]).getD x [] = g._succs.getD x [] := by
      intro x
      have := getD_append_default g._succs ([] : List (Nat × Wt)) 1 x
      simpa using this
    have hpp : ∀ y, (g._preds ++ [[]]).getD y [] = g._preds.getD y [] := by
      intro y
      have := getD_append_default g._preds ([] : List Nat) 1 y
      simpa using this
    have hff : ∀ z, (g.is_free ++ [false]).getD z false = g.is_free.getD z false := by
      intro z
      have := getD_append_default g.is_free false 1 z
      simpa using this
    refine ⟨?_, ?_, ?_, ?_, ?_, ?_, ?_, ?_, ?_, ?_⟩
    · simp [hwf.len_s]
    · simp [hwf.len_p]
    · intro x
      rw [hss]
      exact hwf.sorted_s x
    · intro y
      rw [hpp]
      exact hwf.sorted_p y
    · intro x d hd
      rw [hss] at hd
      have := hwf.bound_s x d hd
      simp only [List.length_append, List.length_cons, List.length_nil]
      omega
    · intro y p hp
      rw [hpp] at hp
      have := hwf.bound_p y p hp
      simp only [List.length_append, List.length_cons, List.length_nil]
      omega
    · intro z hz
      rw [hff] at hz
      rw [hss]
      exact hwf.free_s z hz
    · intro z hz
      rw [hff] at hz
      rw [hpp]
      exact hwf.free_p z hz
    · intro x y
      rw [hss, hpp]
      exact hwf.sym x y
    · simp only [List.map_append, List.sum_append]
      simp [hwf.count]

theorem wf_growTo (g : PtGraph Wt) (hwf : WF g) (n : Nat) (g' : PtGraph Wt)
    (h : g.growTo n = some g') : WF g' := by
  rw [growTo] at h
  by_cases hfree : g.free_id = []
  · rw [if_pos hfree] at h
    have hg : g' = { g with
        _succs := g._succs ++ List.replicate (n - g.is_free.length) [],
        _preds := g._preds ++ List.replicate (n - g.is_free.length) [],
        is_free := g.is_free ++ List.replicate (n - g.is_free.length) false } := by
      cases h
      rfl
    subst hg
    have hss : ∀ x, (g._succs ++ List.replicate (n - g.is_free.length) []).getD x []
        = g._succs.getD x [] := fun x => getD_append_default _ _ _ x
    have hpp : ∀ y, (g._preds ++ List.replicate (n - g.is_free.length) []).getD y []
        = g._preds.getD y [] := fun y => getD_append_default _ _ _ y
    have hff : ∀ z, (g.is_free ++ List.replicate (n - g.is_free.length) false).getD z false
        = g.is_free.getD z false := fun z => getD_append_default _ _ _ z
    refine ⟨?_, ?_, ?_, ?_, ?_, ?_, ?_, ?_, ?_, ?_⟩
    · simp [hwf.len_s]
    · simp [hwf.len_p]
    · intro x
      rw [hss]
      exact hwf.sorted_s x
    · intro y
      rw [hpp]
      exact hwf.sorted_p y
    · intro x d hd
      rw [hss] at hd
      have := hwf.bound_s x d hd
      simp only [List.length_append, List.length_replicate]
      omega
    · intro y p hp
      rw [hpp] at hp
      have := hwf.bound_p y p hp
      simp only [List.length_append, List.length_replicate]
      omega
    · intro z hz
      rw [hff] at hz
      rw [hss]
      exact hwf.free_s z hz
    · intro z hz
      rw [hff] at hz
      rw [hpp]
      exact hwf.free_p z hz
    · intro x y
      rw [hss, hpp]
      exact hwf.sym x y
    · simp only [List.map_append, List.sum_append, List.map_replicate]
      simp [hwf.count]
  · rw [if_neg hfree] at h
    exact absurd h (by simp)

theorem elem_iff_mem_keys (g : PtGraph Wt) (x y : Nat) :
    g.elem x y = true ↔ y ∈ keys (g._succs.getD x []) := by
  rw [elem, mapMem_iff]

theorem elem_eq_false_iff (g : PtGraph Wt) (x y : Nat) :
    g.elem x y = false ↔ y ∉ keys (g._succs.getD x []) := by
  rw [elem, mapMem_eq_false_iff]

theorem wf_add_edge (g : PtGraph Wt) (hwf : WF g) (x : Nat) (w : Wt) (y : Nat)
    (hx : g.is_free.getD x false = false) (hy : g.is_free.getD y false = false)
    (hne : g.elem x y = false) (g' : PtGraph Wt) (h : g.add_edge x w y = some g') :
    WF g' := by
  rw [add_edge] at h
  split at h
  case isFalse => exact absurd h (by simp)
  case isTrue hb =>
    obtain ⟨hxl, hyl⟩ := hb
    have hg : g' = { g with
        _succs := g._succs.set x (mapInsert y w (g._succs.getD x [])),
        _preds := g._preds.set y (setAdd x (g._preds.getD y [])),
        edge_count := g.edge_count + 1 } := by
      cases h
      rfl
    subst hg
    have hnotin : y ∉ keys (g._succs.getD x []) := (elem_eq_false_iff g x y).mp hne
    refine ⟨?_, ?_, ?_, ?_, ?_, ?_, ?_, ?_, ?_, ?_⟩
    · simp [List.length_set, hwf.len_s]
    · simp [List.length_set, hwf.len_p]
    · intro z
      rw [getD_set _ _ _ _ _ hxl]
      by_cases hz : z = x
      · rw [if_pos hz]
        exact pairwise_keys_mapInsert _ _ _ (hwf.sorted_s x)
      · rw [if_neg hz]
        exact hwf.sorted_s z
    · intro z
      rw [getD_set _ _ _ _ _ hyl]
      by_cases hz : z = y
      · rw [if_pos hz]
        exact pairwise_setAdd _ _ (hwf.sorted_p y)

      · rw [if_neg hz]
        exact hwf.sorted_p z
    · intro z d hd
      simp only [List.length_set]
      rw [getD_set _ _ _ _ _ hxl] at hd
      by_cases hz : z = x
      · rw [if_pos hz] at hd
        rcases (mem_keys_mapInsert d y w _).mp hd with hh | hh
        · subst hh
          exact hwf.len_p ▸ hyl
        · exact hwf.bound_s x d hh
      · rw [if_neg hz] at hd
        exact hwf.bound_s z d hd
    · intro z p hp
      simp only [List.length_set]
      rw [getD_set _ _ _ _ _ hyl] at hp
      by_cases hz : z = y
      · rw [if_pos hz] at hp
        rcases (mem_setAdd p x _).mp hp with hh | hh
        · subst hh
          exact hwf.len_s ▸ hxl
        · exact hwf.bound_p y p hh
      · rw [if_neg hz] at hp
        exact hwf.bound_p z p hp
    · intro z hz
      have hz2 : g.is_free.getD z false = true := hz
      rw [getD_set _ _ _ _ _ hxl]
      by_cases hzx : z = x
      · exfalso
        rw [hzx, hx] at hz2
        simp at hz2
      · rw [if_neg hzx]
        exact hwf.free_s z hz2
    · intro z hz
      have hz2 : g.is_free.getD z false = true := hz
      rw [getD_set _ _ _ _ _ hyl]
      by_cases hzy : z = y
      · exfalso
        rw [hzy, hy] at hz2
        simp at hz2
      · rw [if_neg hzy]
        exact hwf.free_p z hz2
    · intro a b
      rw [getD_set _ _ _ _ _ hxl, getD_set _ _ _ _ _ hyl]
      by_cases ha : a = x
      · rw [if_pos ha]
        by_cases hb : b = y
        · rw [if_pos hb]
          constructor
          · intro _
            exact (mem_setAdd a x _).mpr (Or.inl ha)
          · intro _
            exact (mem_keys_mapInsert b y w _).mpr (Or.inl hb)
        · rw [if_neg hb]
          rw [mem_keys_mapInsert, ha]
          constructor
          · rintro (hh | hh)
            · exact absurd hh hb
            · exact (hwf.sym x b).mp hh
          · intro hh
            exact Or.inr ((hwf.sym x b).mpr hh)
      · rw [if_neg ha]
        by_cases hb : b = y
        · rw [if_pos hb]
          rw [mem_setAdd, hb]
          constructor
          · intro hh
            exact Or.inr ((hwf.sym a y).mp hh)
          · rintro (hh | hh)
            · exact absurd hh ha
            · exact (hwf.sym a y).mpr hh
        · rw [if_neg hb]
          exact hwf.sym a b
    · have hsum := sum_map_set List.length g._succs x
        (mapInsert y w (g._succs.getD x [])) [] hxl
      have hlen := length_mapInsert_of_not_mem y w (g._succs.getD x []) hnotin
      have hc := hwf.count
      simp only []
      omega

theorem wf_overwrite (g : PtGraph Wt) (hwf : WF g) (s d : Nat) (w : Wt)
    (hsl : s < g._succs.length) (helem : g.elem s d = true) :
    WF { g with _succs := g._succs.set s (mapInsert d w (g._succs.getD s [])) } := by
  have hmem : d ∈ keys (g._succs.getD s []) := (elem_iff_mem_keys g s d).mp helem
  refine ⟨?_, hwf.len_p, ?_, hwf.sorted_p, ?_, hwf.bound_p, ?_, hwf.free_p, ?_, ?_⟩
  · simp [List.length_set, hwf.len_s]
  · intro z
    rw [getD_set _ _ _ _ _ hsl]
    by_cases hz : z = s
    · rw [if_pos hz]
      exact pairwise_keys_mapInsert _ _ _ (hwf.sorted_s s)
    · rw [if_neg hz]
      exact hwf.sorted_s z
  · intro z x hx
    simp only [List.length_set]
    rw [getD_set _ _ _ _ _ hsl] at hx
    by_cases hz : z = s
    · rw [if_pos hz] at hx
      rcases (mem_keys_mapInsert x d w _).mp hx with hh | hh
      · subst hh
        exact hwf.bound_s s x (hz ▸ hmem)
      · exact hwf.bound_s s x hh
    · rw [if_neg hz] at hx
      exact hwf.bound_s z x hx
  · intro z hz
    rw [getD_set _ _ _ _ _ hsl]
    by_cases hzs : z = s
    · exfalso
      subst hzs
      have := hwf.free_s z hz
      rw [elem_iff_mem_keys, this] at helem
      simp [keys] at helem
    · rw [if_neg hzs]
      exact hwf.free_s z hz
  · intro a b
    rw [getD_set _ _ _ _ _ hsl]
    by_cases ha : a = s
    · rw [if_pos ha]
      subst ha
      rw [mem_keys_mapInsert]
      constructor
      · rintro (hh | hh)
        · exact (hwf.sym a b).mp (hh ▸ hmem)
        · exact (hwf.sym a b).mp hh
      · intro hh
        exact Or.inr ((hwf.sym a b).mpr hh)
    · rw [if_neg ha]
      exact hwf.sym a b
  · have hsum := sum_map_set List.length g._succs s
      (mapInsert d w (g._succs.getD s [])) [] hsl
    have hlen := length_mapInsert_of_mem d w (g._succs.getD s []) (hwf.sorted_s s) hmem
    have hc := hwf.count
    simp only []
    omega

theorem wf_set_edge (g : PtGraph Wt) (hwf : WF g) (s : Nat) (w : Wt) (d : Nat)
    (hs : g.is_free.getD s false = false) (hd : g.is_free.getD d false = false)
    (g' : PtGraph Wt) (h : g.set_edge s w d = some g') : WF g' := by
  rw [set_edge] at h
  split at h
  case isFalse => exact absurd h (by simp)
  case isTrue hsl =>
    split at h
    case isTrue helem =>
      have hg : g' = { g with
          _succs := g._succs.set s (mapInsert d w (g._succs.getD s [])) } := by
        cases h
        rfl
      subst hg
      exact wf_overwrite g hwf s d w hsl helem
    case isFalse hne =>
      exact wf_add_edge g hwf s w d hs hd (by simpa using hne) g' h

theorem wf_update_edge (g : PtGraph Wt) (hwf : WF g) (s : Nat) (w : Wt) (d : Nat)
    (op : MergeOp Wt) (hs : g.is_free.getD s false = false)
    (hd : g.is_free.getD d false = false) (g' : PtGraph Wt)
    (h : g.update_edge s w d op = some g') : WF g' := by
  rw [update_edge] at h
  split at h
  case isFalse => exact absurd h (by simp)
  case isTrue hsl =>
    split at h
    case isTrue helem =>
      split at h
      case _ w0 hev =>
        have hg : g' = { g with
            _succs := g._succs.set s
              (mapInsert d (op.apply w0 w) (g._succs.getD s [])) } := by
          cases h
          rfl
        subst hg
        exact wf_overwrite g hwf s d (op.apply w0 w) hsl helem
      case _ hev =>
        exact absurd h (by simp)
    case isFalse hne =>
      split at h
      case isTrue =>
        cases h
        exact hwf
      case isFalse =>
        exact wf_add_edge g hwf s w d hs hd (by simpa using hne) g' h

theorem forgetPreds1_eq_keys_foldl (g : PtGraph Wt) (v : Nat) :
    forgetPreds1 g v = (keys (g._succs.getD v [])).foldl
      (fun ps d => ps.set d (setRemove v (ps.getD d []))) g._preds := by
  rw [forgetPreds1, keys, List.foldl_map]

theorem forgetPreds1_length (g : PtGraph Wt) (v : Nat) :
    (forgetPreds1 g v).length = g._preds.length := by
  rw [forgetPreds1_eq_keys_foldl]
  exact foldl_set_length (setRemove v) _ g._preds

theorem forgetPreds1_getD (g : PtGraph Wt) (hwf : WF g) (v : Nat) (j : Nat) :
    (forgetPreds1 g v).getD j [] =
      if j ∈ keys (g._succs.getD v []) then setRemove v (g._preds.getD j [])
      else g._preds.getD j [] := by
  rw [forgetPreds1_eq_keys_foldl]
  exact foldl_set_getD (setRemove v) (keys (g._succs.getD v []))
    (nodup_of_pairwise_lt _ (hwf.sorted_s v)) g._preds
    (fun d hd => hwf.len_p ▸ hwf.bound_s v d hd) j

theorem forgetPv_eq (g : PtGraph Wt) (hwf : WF g) (v : Nat) :
    forgetPv g v = setRemove v (g._preds.getD v []) := by
  rw [forgetPv, forgetPreds1_getD g hwf v v]
  by_cases h : v ∈ keys (g._succs.getD v [])
  · rw [if_pos h]
  · rw [if_neg h]
    have hnp : v ∉ g._preds.getD v [] := fun hc => h ((hwf.sym v v).mpr hc)
    rw [setRemove_of_not_mem v _ hnp]

theorem not_mem_forgetPv (g : PtGraph Wt) (hwf : WF g) (v : Nat) :
    v ∉ forgetPv g v := by
  rw [forgetPv_eq g hwf v, mem_setRemove]
  simp

theorem forgetSuccs2_length (g : PtGraph Wt) (v : Nat) :
    (forgetSuccs2 g v).length = g._succs.length := by
  rw [forgetSuccs2, foldl_set_length (mapRemove v) _ _, List.length_set]

theorem forgetSuccs2_getD (g : PtGraph Wt) (hwf : WF g) (v : Nat)
    (hv : v < g._succs.length) (j : Nat) :
    (forgetSuccs2 g v).getD j [] =
      if j = v then []
      else if j ∈ setRemove v (g._preds.getD v []) then mapRemove v (g._succs.getD j [])
      else g._succs.getD j [] := by
  have hnodup : (forgetPv g v).Nodup := by
    rw [forgetPv_eq g hwf v]
    exact (List.filter_sublist _).nodup (nodup_of_pairwise_lt _ (hwf.sorted_p v))
  have hbound : ∀ p ∈ forgetPv g v, p < (g._succs.set v []).length := by
    intro p hp
    rw [forgetPv_eq g hwf v, mem_setRemove] at hp
    rw [List.length_set, hwf.len_s]
    exact hwf.bound_p v p hp.1
  rw [forgetSuccs2, foldl_set_getD (mapRemove v) _ hnodup _ hbound j,
    ← forgetPv_eq g hwf v]
  by_cases hjv : j = v
  · have hj : j ∉ forgetPv g v := hjv ▸ not_mem_forgetPv g hwf v
    rw [if_neg hj, if_pos hjv, hjv]
    exact getD_set_self _ _ _ _ hv
  · rw [if_neg hjv, getD_set _ _ _ _ _ hv, if_neg hjv]

theorem forget_count (g : PtGraph Wt) (hwf : WF g) (v : Nat)
    (hv : v < g._succs.length) :
    ((forgetSuccs2 g v).map List.length).sum + (g._succs.getD v []).length
      + (forgetPv g v).length = (g._succs.map List.length).sum := by
  have hnodup : (forgetPv g v).Nodup := by
    rw [forgetPv_eq g hwf v]
    exact (List.filter_sublist _).nodup (nodup_of_pairwise_lt _ (hwf.sorted_p v))
  have hbound : ∀ p ∈ forgetPv g v, p < (g._succs.set v []).length := by
    intro p hp
    rw [forgetPv_eq g hwf v, mem_setRemove] at hp
    rw [List.length_set, hwf.len_s]
    exact hwf.bound_p v p hp.1
  have hdrop : ∀ p ∈ forgetPv g v,
      (mapRemove v ((g._succs.set v []).getD p [])).length + 1 =
        ((g._succs.set v []).getD p []).length := by
    intro p hp
    have hpv : p ≠ v := by
      intro hc
      exact not_mem_forgetPv g hwf v (hc ▸ hp)
    rw [getD_set_ne _ _ _ _ _ (fun hc => hpv hc.symm)]
    have hpmem : p ∈ g._preds.getD v [] := by
      rw [forgetPv_eq g hwf v, mem_setRemove] at hp
      exact hp.1
    have hvk : v ∈ keys (g._succs.getD p []) := (hwf.sym p v).mpr hpmem
    exact length_mapRemove_add_one v _ (nodup_of_pairwise_lt _ (hwf.sorted_s p)) hvk
  have h2 := foldl_set_sum (mapRemove v) (forgetPv g v) hnodup
    (g._succs.set v []) hbound hdrop
  have h1 := sum_map_set List.length g._succs v [] [] hv
  rw [forgetSuccs2]
  simp only [List.length_nil] at h1
  omega

theorem wf_forgetRun (g : PtGraph Wt) (hwf : WF g) (v : Nat)
    (hv : v < g._succs.length) : WF (forgetRun g v) := by
  have hvf : v < g.is_free.length := hwf.len_s ▸ hv
  have hss := forgetSuccs2_getD g hwf v hv
  have hpp : ∀ j, ((forgetPreds1 g v).set v []).getD j [] =
      if j = v then []
      else if j ∈ keys (g._succs.getD v []) then setRemove v (g._preds.getD j [])
      else g._preds.getD j [] := by
    intro j
    have hvp : v < (forgetPreds1 g v).length := by
      rw [forgetPreds1_length, hwf.len_p]
      exact hvf
    rw [getD_set _ _ _ _ _ hvp]
    by_cases hjv : j = v
    · rw [if_pos hjv, if_pos hjv]
    · rw [if_neg hjv, if_neg hjv, forgetPreds1_getD g hwf v j]
  refine ⟨?_, ?_, ?_, ?_, ?_, ?_, ?_, ?_, ?_, ?_⟩
  · rw [forgetRun]
    simp only []
    rw [forgetSuccs2_length, List.length_set, hwf.len_s]
  · rw [forgetRun]
    simp only []
    rw [List.length_set, forgetPreds1_length, List.length_set, hwf.len_p]
  · intro x
    rw [forgetRun]
    simp only []
    rw [hss x]
    by_cases hx : x = v
    · rw [if_pos hx]
      simp [keys]
    · rw [if_neg hx]
      by_cases hx2 : x ∈ setRemove v (g._preds.getD v [])
      · rw [if_pos hx2]
        exact pairwise_keys_mapRemove _ _ (hwf.sorted_s x)
      · rw [if_neg hx2]
        exact hwf.sorted_s x
  · intro y
    rw [forgetRun]
    simp only []
    rw [hpp y]
    by_cases hy : y = v
    · rw [if_pos hy]
      simp
    · rw [if_neg hy]
      by_cases hy2 : y ∈ keys (g._succs.getD v [])
      · rw [if_pos hy2]
        exact pairwise_setRemove _ _ (hwf.sorted_p y)
      · rw [if_neg hy2]
        exact hwf.sorted_p y
  · intro x d hd
    rw [forgetRun] at hd ⊢
    simp only [] at hd ⊢
    rw [List.length_set]
    rw [hss x] at hd
    by_cases hx : x = v
    · rw [if_pos hx] at hd
      simp [keys] at hd
    · rw [if_neg hx] at hd
      by_cases hx2 : x ∈ setRemove v (g._preds.getD v [])
      · rw [if_pos hx2, mem_keys_mapRemove] at hd
        exact hwf.bound_s x d hd.1
      · rw [if_neg hx2] at hd
        exact hwf.bound_s x d hd
  · intro y p hp
    rw [forgetRun] at hp ⊢
    simp only [] at hp ⊢
    rw [List.length_set]
    rw [hpp y] at hp
    by_cases hy : y = v
    · rw [if_pos hy] at hp
      simp at hp
    · rw [if_neg hy] at hp
      by_cases hy2 : y ∈ keys (g._succs.getD v [])
      · rw [if_pos hy2, mem_setRemove] at hp
        exact hwf.bound_p y p hp.1
      · rw [if_neg hy2] at hp
        exact hwf.bound_p y p hp
  · intro z hz
    rw [forgetRun] at hz ⊢
    simp only [] at hz ⊢
    rw [hss z]
    by_cases hzv : z = v
    · rw [if_pos hzv]
    · have hz2 : g.is_free.getD z false = true := by
        have : (g.is_free.set v true).getD z false = true := hz
        rwa [getD_set_ne _ _ _ _ _ (fun hc => hzv hc.symm)] at this
      have hempty := hwf.free_s z hz2
      rw [if_neg hzv, hempty]
      by_cases hx2 : z ∈ setRemove v (g._preds.getD v [])
      · rw [if_pos hx2, mapRemove]
        rfl
      · rw [if_neg hx2]
  · intro z hz
    rw [forgetRun] at hz ⊢
    simp only [] at hz ⊢
    rw [hpp z]
    by_cases hzv : z = v
    · rw [if_pos hzv]
    · have hz2 : g.is_free.getD z false = true := by
        have : (g.is_free.set v true).getD z false = true := hz
        rwa [getD_set_ne _ _ _ _ _ (fun hc => hzv hc.symm)] at this
      have hempty := hwf.free_p z hz2
      rw [if_neg hzv, hempty]
      by_cases hy2 : z ∈ keys (g._succs.getD v [])
      · rw [if_pos hy2, setRemove]
        rfl
      · rw [if_neg hy2]
  · intro a b
    rw [forgetRun]
    simp only []
    rw [hss a, hpp b]
    by_cases hav : a = v
    · rw [if_pos hav, keys_nil]
      simp only [List.not_mem_nil, false_iff]
      intro hc
      by_cases hbv : b = v
      · rw [if_pos hbv] at hc
        simp at hc
      · rw [if_neg hbv] at hc
        by_cases hb2 : b ∈ keys (g._succs.getD v [])
        · rw [if_pos hb2, mem_setRemove] at hc
          exact hc.2 hav
        · rw [if_neg hb2] at hc
          exact hb2 ((hwf.sym v b).mpr (hav ▸ hc))
    · rw [if_neg hav]
      by_cases hbv : b = v
      · rw [if_pos hbv]
        simp only [List.not_mem_nil, iff_false]
        intro hc
        by_cases ha2 : a ∈ setRemove v (g._preds.getD v [])
        · rw [if_pos ha2, mem_keys_mapRemove] at hc
          exact hc.2 hbv
        · rw [if_neg ha2] at hc
          apply ha2
          rw [mem_setRemove]
          exact ⟨(hwf.sym a v).mp (hbv ▸ hc), hav⟩
      · have hlhs : (b ∈ keys (if a ∈ setRemove v (g._preds.getD v []) then
            mapRemove v (g._succs.getD a []) else g._succs.getD a [])) ↔
            b ∈ keys (g._succs.getD a []) := by
          by_cases ha2 : a ∈ setRemove v (g._preds.getD v [])
          · rw [if_pos ha2, mem_keys_mapRemove]
            constructor
            · exact fun h => h.1
            · exact fun h => ⟨h, hbv⟩
          · rw [if_neg ha2]
        have hrhs : (a ∈ (if b ∈ keys (g._succs.getD v []) then
            setRemove v (g._preds.getD b []) else g._preds.getD b [])) ↔
            a ∈ g._preds.getD b [] := by
          by_cases hb2 : b ∈ keys (g._succs.getD v [])
          · rw [if_pos hb2, mem_setRemove]
            constructor
            · exact fun h => h.1
            · exact fun h => ⟨h, hav⟩
          · rw [if_neg hb2]
        rw [hlhs, if_neg hbv, hrhs]
        exact hwf.sym a b
  · rw [forgetRun]
    simp only []
    have hcnt := forget_count g hwf v hv
    have hc := hwf.count
    omega

theorem wf_forget (g : PtGraph Wt) (hwf : WF g) (v : Nat) (g' : PtGraph Wt)
    (h : g.forget v = some g') : WF g' := by
  rw [forget] at h
  split at h
  case isFalse => exact absurd h (by simp)
  case isTrue hv =>
    split at h
    case isTrue =>
      cases h
      exact hwf
    case isFalse hfree =>
      cases h
      exact wf_forgetRun g hwf v hv

theorem wf_step (o : Op Wt) (g g' : PtGraph Wt) (hwf : WF g)
    (h : step o g = some g') : WF g' := by
  cases o with
  | newV =>
    simp only [step] at h
    cases hh : g.new_vertex with
    | none =>
      rw [hh] at h
      exact absurd h (by simp)
    | some p =>
      rw [hh] at h
      have h2 : p.2 = g' := by simpa using h
      cases h2
      exact wf_new_vertex g hwf p.1 p.2 (by rw [hh])
  | grow n =>
    simp only [step] at h
    exact wf_growTo g hwf n g' h
  | add x w y =>
    simp only [step] at h
    split at h
    case isFalse => exact absurd h (by simp)
    case isTrue hc =>
      exact wf_add_edge g hwf x w y hc.1.2 hc.2.1.2 hc.2.2 g' h
  | setE x w y =>
    simp only [step] at h
    split at h
    case isFalse => exact absurd h (by simp)
    case isTrue hc =>
      exact wf_set_edge g hwf x w y hc.1.2 hc.2.2 g' h
  | update x w y op =>
    simp only [step] at h
    split at h
    case isFalse => exact absurd h (by simp)
    case isTrue hc =>
      exact wf_update_edge g hwf x w y op hc.1.2 hc.2.2 g' h
  | forget v =>
    simp only [step] at h
    exact wf_forget g hwf v g' h

theorem wf_reachable (g : PtGraph Wt) (h : Reachable g) : WF g := by
  induction h with
  | init => exact wf_empty
  | next o _ hstep ih => exact wf_step o _ _ ih hstep

end PtGraph

theorem sum_map_filter_of_zero (l : List Nat) (p : Nat → Bool) (f : Nat → Nat)
    (h : ∀ x ∈ l, p x = false → f x = 0) :
    ((l.filter p).map f).sum = (l.map f).sum := by
  induction l with
  | nil => simp
  | cons x l ih =>
    have hih := ih (fun a ha hpa => h a (List.mem_cons_of_mem x ha) hpa)
    rw [List.filter_cons]
    by_cases hx : p x = true
    · rw [if_pos hx]
      simp only [List.map_cons, List.sum_cons]
      rw [hih]
    · have hx2 : p x = false := by
        revert hx
        cases p x <;> simp
      rw [if_neg (by rw [hx2]; simp)]
      simp only [List.map_cons, List.sum_cons]
      rw [hih, h x (List.mem_cons_self x l) hx2]
      omega

namespace PtGraph

variable {Wt : Type}

theorem edge_count_eq_live_succ_sum (g : PtGraph Wt) (hwf : WF g) :
    g.edge_count = (g.verts.map (fun v => (g._succs.getD v []).length)).sum := by
  rw [verts_eq_filter]
  rw [sum_map_filter_of_zero _ _ _ ?hz]
  case hz =>
    intro x _ hpx
    have hfree : g.is_free.getD x false = true := by
      revert hpx
      cases g.is_free.getD x false <;> simp
    rw [hwf.free_s x hfree]
    rfl
  rw [list_range_map_sum, hwf.count, sum_map_eq_finset_sum g._succs List.length [],
    hwf.len_s]

theorem all_slot_pred_sum (g : PtGraph Wt) (hwf : WF g) :
    (∑ x in Finset.range g.is_free.length, (g._succs.getD x []).length)
      = ∑ y in Finset.range g.is_free.length, (g._preds.getD y []).length := by
  classical
  have hs : ∀ x, (g._succs.getD x []).length =
      ∑ y in Finset.range g.is_free.length,
        if y ∈ keys (g._succs.getD x []) then 1 else 0 := by
    intro x
    rw [← length_eq_sum_indicator (keys (g._succs.getD x [])) g.is_free.length
      (nodup_of_pairwise_lt _ (hwf.sorted_s x)) (hwf.bound_s x), keys,
      List.length_map]
  have hp : ∀ y, (g._preds.getD y []).length =
      ∑ x in Finset.range g.is_free.length,
        if x ∈ g._preds.getD y [] then 1 else 0 := by
    intro y
    exact length_eq_sum_indicator (g._preds.getD y []) g.is_free.length
      (nodup_of_pairwise_lt _ (hwf.sorted_p y)) (hwf.bound_p y)
  calc (∑ x in Finset.range g.is_free.length, (g._succs.getD x []).length)
      = ∑ x in Finset.range g.is_free.length, ∑ y in Finset.range g.is_free.length,
          if y ∈ keys (g._succs.getD x []) then 1 else 0 :=
        Finset.sum_congr rfl (fun x _ => hs x)
    _ = ∑ y in Finset.range g.is_free.length, ∑ x in Finset.range g.is_free.length,
          if y ∈ keys (g._succs.getD x []) then 1 else 0 := Finset.sum_comm
    _ = ∑ y in Finset.range g.is_free.length, ∑ x in Finset.range g.is_free.length,
          if x ∈ g._preds.getD y [] then 1 else 0 :=
        Finset.sum_congr rfl (fun y _ => Finset.sum_congr rfl
          (fun x _ => if_congr (hwf.sym x y) rfl rfl))
    _ = ∑ y in Finset.range g.is_free.length, (g._preds.getD y []).length :=
        Finset.sum_congr rfl (fun y _ => (hp y).symm)

theorem edge_count_eq_live_pred_sum (g : PtGraph Wt) (hwf : WF g) :
    g.edge_count = (g.verts.map (fun v => (g._preds.getD v []).length)).sum := by
  rw [verts_eq_filter]
  rw [sum_map_filter_of_zero _ _ _ ?hz]
  case hz =>
    intro x _ hpx
    have hfree : g.is_free.getD x false = true := by
      revert hpx
      cases g.is_free.getD x false <;> simp
    rw [hwf.free_p x hfree]
    rfl
  rw [list_range_map_sum, hwf.count, sum_map_eq_finset_sum g._succs List.length [],
    hwf.len_s, all_slot_pred_sum g hwf]

end PtGraph

section CopyHelpers

variable {Wt : Type}

theorem mapLookup_append_of_not_mem (k : Nat) (m1 m2 : List (Nat × Wt))
    (h : k ∉ keys m1) : mapLookup k (m1 ++ m2) = mapLookup k m2 := by
  induction m1 with
  | nil => simp
  | cons p m1 ih =>
    simp only [keys, List.map_cons, List.mem_cons] at h
    push_neg at h
    rw [List.cons_append, mapLookup, if_neg (fun hc => h.1 hc.symm)]
    exact ih h.2

theorem mapLookup_cons_self (k : Nat) (w : Wt) (m : List (Nat × Wt)) :
    mapLookup k ((k, w) :: m) = some w := by
  rw [mapLookup, if_pos rfl]

theorem mapInsert_append_of_gt (k : Nat) (w : Wt) (m : List (Nat × Wt))
    (h : ∀ j ∈ keys m, j < k) : mapInsert k w m = m ++ [(k, w)] := by
  induction m with
  | nil => rfl
  | cons p m ih =>
    simp only [keys, List.map_cons, List.mem_cons] at h
    have hp : p.1 < k := h p.1 (Or.inl rfl)
    rw [mapInsert, if_neg (by omega), if_neg (by omega), List.cons_append,
      ih (fun j hj => h j (Or.inr hj))]

theorem sorted_middle_keys (m1 : List (Nat × Wt)) (d : Nat) (w : Wt)
    (m2 : List (Nat × Wt)) (hs : (keys (m1 ++ (d, w) :: m2)).Pairwise (· < ·)) :
    ∀ j ∈ keys m1, j < d := by
  intro j hj
  have : keys (m1 ++ (d, w) :: m2) = keys m1 ++ d :: keys m2 := by
    rw [keys, keys, keys, List.map_append, List.map_cons]
  rw [this] at hs
  rcases List.pairwise_append.mp hs with ⟨_, _, hrel⟩
  exact hrel j hj d (List.mem_cons_self d _)

theorem add_edge_eq (g : PtGraph Wt) (x : Nat) (w : Wt) (y : Nat)
    (hx : x < g._succs.length) (hy : y < g._preds.length) :
    g.add_edge x w y = some { g with
      _succs := g._succs.set x (mapInsert y w (g._succs.getD x [])),
      _preds := g._preds.set y (setAdd x (g._preds.getD y [])),
      edge_count := g.edge_count + 1 } := by
  rw [PtGraph.add_edge, if_pos ⟨hx, hy⟩]

theorem copy_inner_spec (g : PtGraph Wt) (s : Nat) (m2 : List (Nat × Wt)) :
    ∀ (r : PtGraph Wt) (m1 : List (Nat × Wt)),
      g._succs.getD s [] = m1 ++ m2 →
      (keys (m1 ++ m2)).Pairwise (· < ·) →
      r._succs.getD s [] = m1 →
      s < r._succs.length →
      (∀ d ∈ keys m2, d < r._preds.length) →
      ∃ r', ((keys m2).foldl (fun acc2 d => PtGraph.copyEdge g s d acc2) (some r))
          = some r' ∧
        r'._succs.getD s [] = m1 ++ m2 ∧
        (∀ x, x ≠ s → r'._succs.getD x [] = r._succs.getD x []) ∧
        r'._succs.length = r._succs.length ∧
        r'._preds.length = r._preds.length ∧
        r'.is_free = r.is_free ∧
        r'.edge_count = r.edge_count + m2.length := by
  induction m2 with
  | nil =>
    intro r m1 hgs _ hrs _ _
    refine ⟨r, by simp [keys], ?_, fun x _ => rfl, rfl, rfl, rfl, by simp⟩
    rw [hrs, List.append_nil]
  | cons p m2 ih =>
    intro r m1 hgs hsorted hrs hsl hb
    obtain ⟨d, w⟩ := p
    have hm1lt : ∀ j ∈ keys m1, j < d := sorted_middle_keys m1 d w m2 hsorted
    have hlk : g.edge_val s d = some w := by
      rw [PtGraph.edge_val, hgs,
        mapLookup_append_of_not_mem d m1 _
          (fun hc => absurd (hm1lt d hc) (lt_irrefl d)),
        mapLookup_cons_self]
    have hd_lt : d < r._preds.length := hb d (by simp [keys])
    have hins : mapInsert d w m1 = m1 ++ [(d, w)] :=
      mapInsert_append_of_gt d w m1 hm1lt
    have hadd := add_edge_eq r s w d hsl hd_lt
    have hstep : PtGraph.copyEdge g s d (some r) = some { r with
        _succs := r._succs.set s (mapInsert d w (r._succs.getD s [])),
        _preds := r._preds.set d (setAdd s (r._preds.getD d [])),
        edge_count := r.edge_count + 1 } := by
      rw [show PtGraph.copyEdge g s d (some r) =
          (match g.edge_val s d with
            | some w => r.add_edge s w d
            | none => none) from rfl, hlk]
      exact hadd
    have hkeys : keys ((d, w) :: m2) = d :: keys m2 := rfl
    rw [hkeys, List.foldl_cons, hstep]
    have hshape : g._succs.getD s [] = (m1 ++ [(d, w)]) ++ m2 := by
      rw [hgs, List.append_assoc, List.singleton_append]
    have hsorted2 : (keys ((m1 ++ [(d, w)]) ++ m2)).Pairwise (· < ·) := by
      rw [List.append_assoc, List.singleton_append]
      exact hsorted
    obtain ⟨r', hfold, hss, hother, hls, hlp, hfree, hec⟩ :=
      ih { r with
          _succs := r._succs.set s (mapInsert d w (r._succs.getD s [])),
          _preds := r._preds.set d (setAdd s (r._preds.getD d [])),
          edge_count := r.edge_count + 1 }
        (m1 ++ [(d, w)]) hshape hsorted2
        (by
          simp only []
          rw [getD_set_self _ _ _ _ hsl, hrs, hins])
        (by simpa using hsl)
        (by
          intro d2 hd2
          simp only [List.length_set]
          exact hb d2 (by rw [hkeys]; exact List.mem_cons_of_mem d hd2))
    refine ⟨r', hfold, ?_, ?_, ?_, ?_, hfree, ?_⟩
    · rw [hss, List.append_assoc, List.singleton_append]
    · intro x hx
      rw [hother x hx]
      simp only []
      rw [getD_set_ne _ _ _ _ _ (fun hc => hx hc.symm)]
    · rw [hls]
      simp
    · rw [hlp]
      simp
    · rw [hec]
      simp only [List.length_cons]
      omega

theorem copy_outer_spec (g : PtGraph Wt) (hwf : PtGraph.WF g) (vs : List Nat) :
    ∀ (r : PtGraph Wt),
      vs.Nodup →
      (∀ s ∈ vs, s < g.is_free.length) →
      r._succs.length = g.is_free.length →
      r._preds.length = g.is_free.length →
      (∀ s ∈ vs, r._succs.getD s [] = []) →
      ∃ r', (vs.foldl (fun acc s => PtGraph.copyVert g s acc) (some r)) = some r' ∧
        (∀ s ∈ vs, r'._succs.getD s [] = g._succs.getD s []) ∧
        (∀ x, x ∉ vs → r'._succs.getD x [] = r._succs.getD x []) ∧
        r'._succs.length = r._succs.length ∧
        r'._preds.length = r._preds.length ∧
        r'.is_free = r.is_free ∧
        r'.edge_count = r.edge_count
          + (vs.map (fun s => (g._succs.getD s []).length)).sum := by
  induction vs with
  | nil =>
    intro r _ _ _ _ _
    exact ⟨r, rfl, by simp, fun x _ => rfl, rfl, rfl, rfl, by simp⟩
  | cons s vs ih =>
    intro r hnd hb hls hlp hempty
    rw [List.nodup_cons] at hnd
    obtain ⟨r1, hfold1, hss1, hother1, hls1, hlp1, hfree1, hec1⟩ :=
      copy_inner_spec g s (g._succs.getD s []) r []
        (by simp) (by simpa using hwf.sorted_s s)
        (hempty s (List.mem_cons_self s vs))
        (by rw [hls]; exact hb s (List.mem_cons_self s vs))
        (by intro d hd; rw [hlp]; exact hwf.bound_s s d hd)
    rw [List.foldl_cons]
    have hcv : PtGraph.copyVert g s (some r) = some r1 := by
      rw [PtGraph.copyVert]
      exact hfold1
    rw [hcv]
    obtain ⟨r', hfold, hss, hother, hls2, hlp2, hfree2, hec2⟩ := ih r1 hnd.2
      (fun s2 hs2 => hb s2 (List.mem_cons_of_mem s hs2))
      (by rw [hls1, hls]) (by rw [hlp1, hlp])
      (by
        intro s2 hs2
        have hne : s2 ≠ s := fun hc => hnd.1 (hc ▸ hs2)
        rw [hother1 s2 hne]
        exact hempty s2 (List.mem_cons_of_mem s hs2))
    refine ⟨r', hfold, ?_, ?_, by rw [hls2, hls1], by rw [hlp2, hlp1],
      by rw [hfree2, hfree1], ?_⟩
    · intro s2 hs2
      rcases List.mem_cons.mp hs2 with hh | hh
      · rw [hh, hother s hnd.1]
        simpa using hss1
      · exact hss s2 hh
    · intro x hx
      simp only [List.mem_cons] at hx
      push_neg at hx
      rw [hother x hx.2, hother1 x hx.1]
    · rw [hec2, hec1]
      simp only [List.map_cons, List.sum_cons]
      omega

theorem copy_spec (g : PtGraph Wt) (hwf : PtGraph.WF g) :
    ∃ g', PtGraph.copy g = some g' ∧
      g'.size = g.size ∧
      (∀ x y, g'.elem x y = g.elem x y) ∧
      (∀ x y, g.elem x y = true → g'.edge_val x y = g.edge_val x y) := by
  have hgrow : PtGraph.growTo (PtGraph.empty : PtGraph Wt) g.size = some
      { edge_count := 0,
        _succs := List.replicate g.size [],
        _preds := List.replicate g.size [],
        is_free := List.replicate g.size false,
        free_id := [] } := by
    rw [PtGraph.growTo]
    simp [PtGraph.empty]
  have hr0s : ∀ i, (List.replicate g.size ([] : List (Nat × Wt))).getD i [] = [] := by
    intro i
    have hh := getD_append_default ([] : List (List (Nat × Wt))) [] g.size i
    rw [List.nil_append] at hh
    rw [hh]
    rfl
  have hverts_live : ∀ s ∈ g.verts, s < g.is_free.length :=
    fun s hs => ((g.mem_verts s).mp hs).1
  obtain ⟨r', hfold, hss, hother, hls, hlp, hfree, hec⟩ :=
    copy_outer_spec g hwf g.verts
      { edge_count := 0,
        _succs := List.replicate g.size [],
        _preds := List.replicate g.size [],
        is_free := List.replicate g.size false,
        free_id := [] }
      g.nodup_verts hverts_live
      (by simp [PtGraph.size]) (by simp [PtGraph.size])
      (fun s _ => hr0s s)
  have helem : ∀ x y, r'.elem x y = g.elem x y := by
    intro x y
    by_cases hx : x ∈ g.verts
    · rw [PtGraph.elem, PtGraph.elem, hss x hx]
    · rw [PtGraph.elem, PtGraph.elem, hother x hx]
      simp only []
      rw [hr0s x]
      rw [g.mem_verts x] at hx
      push_neg at hx
      by_cases hxn : x < g.is_free.length
      · have hfree2 : g.is_free.getD x false = true := by
          have := hx hxn
          revert this
          cases g.is_free.getD x false <;> simp
        rw [hwf.free_s x hfree2]
      · rw [getD_ge_length g._succs x [] (by rw [hwf.len_s]; omega)]
  refine ⟨r', ?_, ?_, helem, ?_⟩
  · rw [PtGraph.copy, hgrow]
    exact hfold
  · rw [PtGraph.size, PtGraph.size, hfree]
    simp [PtGraph.size]
  · intro x y hxy
    have hx : x ∈ g.verts := by
      rw [g.mem_verts x]
      have hmem := (g.elem_iff_mem_keys x y).mp hxy
      constructor
      · by_contra hc
        rw [getD_ge_length g._succs x [] (by rw [hwf.len_s]; omega)] at hmem
        simp [keys] at hmem
      · by_contra hc
        have hfree2 : g.is_free.getD x false = true := by
          revert hc
          cases g.is_free.getD x false <;> simp
        rw [hwf.free_s x hfree2] at hmem
        simp [keys] at hmem
    rw [PtGraph.edge_val, PtGraph.edge_val, hss x hx]

end CopyHelpers

/-! Concrete reachable states for the witnesses. -/

theorem gTwo_reachable : PtGraph.Reachable gTwo :=
  .next (.grow 2) .init (by rfl)

theorem gEdge_reachable : PtGraph.Reachable gEdge :=
  .next (.add 0 5 1) gTwo_reachable (by decide)

theorem gLoop_reachable : PtGraph.Reachable gLoop :=
  .next (.add 0 7 0) (.next (.grow 1) .init (by rfl)) (by decide)

theorem set_edge_overwrite {Wt : Type} (g : PtGraph Wt) (s : Nat) (w : Wt) (d : Nat)
    (hs : s < g._succs.length) (helem : g.elem s d = true) :
    g.set_edge s w d = some { g with
      _succs := g._succs.set s (mapInsert d w (g._succs.getD s [])) } := by
  rw [PtGraph.set_edge, if_pos hs, if_pos helem]

theorem new_vertex_pop {Wt : Type} (g : PtGraph Wt) (l : List Nat) (v : Nat)
    (hl : g.free_id = l ++ [v]) (hv : v < g._succs.length) :
    g.new_vertex
      = some (v, { g with free_id := l, is_free := g.is_free.set v false }) := by
  have hlast : (l ++ [v]).getLast? = some v := List.getLast?_concat l
  have hdrop : (l ++ [v]).dropLast = l := List.dropLast_concat
  rw [PtGraph.new_vertex, hl]
  simp only [hlast, hdrop]
  rw [if_pos hv]

/-! The claims. -/

/-- C1: for every finite sequence of public operations applied from the
empty graph, the symmetry invariant holds after every operation: `y` is in
`succ(x)` if and only if `x` is in `pred(y)`. -/
theorem C1_symmetry {Wt : Type} (g : PtGraph Wt) (h : PtGraph.Reachable g)
    (x y : Nat) :
    g.elem x y = true ↔ setMem x (g._preds.getD y []) = true := by
  rw [g.elem_iff_mem_keys, setMem_iff]
  exact (PtGraph.wf_reachable g h).sym x y

theorem C1_witness :
    (gEdge.elem 0 1 = true ↔ setMem 0 (gEdge._preds.getD 1 []) = true) ∧
    (gEdge.elem 1 0 = true ↔ setMem 1 (gEdge._preds.getD 0 []) = true) :=
  ⟨C1_symmetry gEdge gEdge_reachable 0 1, C1_symmetry gEdge gEdge_reachable 1 0⟩

/-- C2: for every finite sequence of public operations applied from the
empty graph, after every operation `edge_count` equals the sum of
successor-map sizes over all live vertices, which also equals the sum of
predecessor-set sizes over all live vertices. -/
theorem C2_count {Wt : Type} (g : PtGraph Wt) (h : PtGraph.Reachable g) :
    g.edge_count = (g.verts.map (fun v => (g._succs.getD v []).length)).sum ∧
    g.edge_count = (g.verts.map (fun v => (g._preds.getD v []).length)).sum :=
  ⟨PtGraph.edge_count_eq_live_succ_sum g (PtGraph.wf_reachable g h),
   PtGraph.edge_count_eq_live_pred_sum g (PtGraph.wf_reachable g h)⟩

theorem C2_witness :
    gEdge.edge_count
        = (gEdge.verts.map (fun v => (gEdge._succs.getD v []).length)).sum ∧
    gEdge.edge_count
        = (gEdge.verts.map (fun v => (gEdge._preds.getD v []).length)).sum :=
  C2_count gEdge gEdge_reachable

/-- C8: iterating `verts()` yields exactly the currently live vertex ids,
in ascending order, with every free slot skipped. -/
theorem C8_verts {Wt : Type} (g : PtGraph Wt) :
    g.verts = (List.range g.size).filter (fun v => !(g.is_free.getD v false)) ∧
    g.verts.Pairwise (· < ·) ∧
    (∀ v, v ∈ g.verts ↔ v < g.size ∧ g.is_free.getD v false = false) :=
  ⟨g.verts_eq_filter, g.pairwise_verts, g.mem_verts⟩

theorem C8_witness :
    gLoopF.verts
        = (List.range gLoopF.size).filter (fun v => !(gLoopF.is_free.getD v false)) ∧
    gLoopF.verts.Pairwise (· < ·) ∧
    (∀ v, v ∈ gLoopF.verts ↔ v < gLoopF.size ∧ gLoopF.is_free.getD v false = false) :=
  C8_verts gLoopF

/-- C9: `edge_val(x, y)` requires `is_elem(x, y)`; under that precondition
it returns the weight stored for the edge (in particular the weight stored
by the most recent `set_edge`), and on violation the lookup dereference
fails (modelled as `none`) instead of returning any sentinel weight. -/
theorem C9_edge_val {Wt : Type} (g : PtGraph Wt) (x y : Nat) :
    (g.elem x y = true → ∃ w, g.edge_val x y = some w) ∧
    (g.elem x y = false → g.edge_val x y = none) ∧
    (∀ w g', g.set_edge x w y = some g' → g'.edge_val x y = some w) := by
  refine ⟨?_, ?_, ?_⟩
  · intro h
    have h2 : (g.edge_val x y).isSome = true := h
    cases hev : g.edge_val x y with
    | none => rw [hev] at h2; cases h2
    | some w => exact ⟨w, rfl⟩
  · intro h
    have h2 : (g.edge_val x y).isSome = false := h
    cases hev : g.edge_val x y with
    | none => rfl
    | some w => rw [hev] at h2; cases h2
  · intro w g' h
    rw [PtGraph.set_edge] at h
    split at h
    case isFalse => exact absurd h (by simp)
    case isTrue hxl =>
      split at h
      case isTrue helem =>
        cases h
        rw [PtGraph.edge_val]
        simp only []
        rw [getD_set_self _ _ _ _ hxl, mapLookup_mapInsert_self]
      case isFalse hne =>
        rw [PtGraph.add_edge] at h
        split at h
        case isFalse => exact absurd h (by simp)
        case isTrue hb =>
          cases h
          rw [PtGraph.edge_val]
          simp only []
          rw [getD_set_self _ _ _ _ hb.1, mapLookup_mapInsert_self]

theorem C9_witness :
    (gEdge.elem 0 1 = true → ∃ w, gEdge.edge_val 0 1 = some w) ∧
    (gEdge.elem 1 0 = false → gEdge.edge_val 1 0 = none) ∧
    (∀ w g', gEdge.set_edge 0 w 1 = some g' → g'.edge_val 0 1 = some w) :=
  ⟨(C9_edge_val gEdge 0 1).1, (C9_edge_val gEdge 1 0).2.1,
   (C9_edge_val gEdge 0 1).2.2⟩

/-- C10: `grow_to(n)` requires an empty free-list and fails the assertion
otherwise (modelled as `none`); under the precondition it extends storage
with live slots carrying empty successor and predecessor containers until
at least `n` slots exist, leaves all previously existing slots and edges
unchanged, and is a no-op when `n <= size()`. -/
theorem C10_growTo {Wt : Type} (g : PtGraph Wt) (hwf : PtGraph.WF g) (n : Nat) :
    (g.free_id ≠ [] → g.growTo n = none) ∧
    (g.free_id = [] →
      ∃ g', g.growTo n = some g' ∧
        g'.size = max g.size n ∧
        g'.edge_count = g.edge_count ∧
        (∀ i, g'.is_free.getD i false = g.is_free.getD i false ∨
          (g.size ≤ i ∧ g'.is_free.getD i false = false)) ∧
        (∀ i, i < g.size →
          g'.is_free.getD i false = g.is_free.getD i false ∧
          g'._succs.getD i [] = g._succs.getD i [] ∧
          g'._preds.getD i [] = g._preds.getD i []) ∧
        (∀ i, g.size ≤ i → i < n →
          g'.is_free.getD i false = false ∧
          g'._succs.getD i [] = [] ∧ g'._preds.getD i [] = []) ∧
        (n ≤ g.size → g' = g)) := by
  constructor
  · intro h
    rw [PtGraph.growTo, if_neg h]
  · intro h
    refine ⟨{ g with
        _succs := g._succs ++ List.replicate (n - g.is_free.length) [],
        _preds := g._preds ++ List.replicate (n - g.is_free.length) [],
        is_free := g.is_free ++ List.replicate (n - g.is_free.length) false },
      by rw [PtGraph.growTo, if_pos h], ?_, rfl, ?_, ?_, ?_, ?_⟩
    · simp only [PtGraph.size, List.length_append, List.length_replicate]
      omega
    · intro i
      exact Or.inl (getD_append_default _ _ _ i)
    · intro i _
      exact ⟨getD_append_default _ _ _ i, getD_append_default _ _ _ i,
        getD_append_default _ _ _ i⟩
    · intro i hge hlt
      have hge2 : g.is_free.length ≤ i := hge
      refine ⟨?_, ?_, ?_⟩
      · rw [getD_append_replicate, if_neg (by omega), if_pos (by omega)]
      · rw [getD_append_replicate, if_neg (by rw [hwf.len_s]; omega),
          if_pos (by rw [hwf.len_s]; omega)]
      · rw [getD_append_replicate, if_neg (by rw [hwf.len_p]; omega),
          if_pos (by rw [hwf.len_p]; omega)]
    · intro hn
      have h0 : n - g.is_free.length = 0 := by
        rw [PtGraph.size] at hn
        omega
      rw [h0]
      simp only [List.replicate_zero, List.append_nil]

theorem C10_witness :
    ∃ g', gTwo.growTo 3 = some g' ∧ g'.size = max gTwo.size 3 ∧
      g'.edge_count = gTwo.edge_count := by
  obtain ⟨g', h1, h2, h3, _⟩ :=
    (C10_growTo gTwo (PtGraph.wf_reachable gTwo gTwo_reachable) 3).2 rfl
  exact ⟨g', h1, h2, h3⟩

/-- C7: `new_vertex()` pops the most-recently-freed slot id when the
free-list is non-empty and marks it live; otherwise it appends one fresh
slot with empty successor and predecessor containers and returns its
index.  Hence `forget(v)` on a live vertex followed immediately by
`new_vertex()` returns `v` again, and `size()` does not increase across
the pair. -/
theorem C7_new_vertex {Wt : Type} (g : PtGraph Wt) :
    (∀ l v, g.free_id = l ++ [v] → v < g._succs.length →
      g.new_vertex
        = some (v, { g with free_id := l, is_free := g.is_free.set v false })) ∧
    (g.free_id = [] →
      g.new_vertex = some (g.is_free.length,
        { g with _succs := g._succs ++ [[]], _preds := g._preds ++ [[]],
                 is_free := g.is_free ++ [false] })) ∧
    (∀ v, v < g._succs.length → g.is_free.getD v false = false →
      ∃ g1 g2, g.forget v = some g1 ∧ g1.new_vertex = some (v, g2) ∧
        g2.size = g.size) := by
  refine ⟨?_, ?_, ?_⟩
  · intro l v hl hv
    exact new_vertex_pop g l v hl hv
  · intro h
    rw [PtGraph.new_vertex, h]
    rfl
  · intro v hv hlive
    have hforget : g.forget v = some (PtGraph.forgetRun g v) := by
      rw [PtGraph.forget, if_pos hv, if_neg (by rw [hlive]; simp)]
    have hpop := new_vertex_pop (PtGraph.forgetRun g v) g.free_id v rfl
      (by rw [PtGraph.forgetRun]; simp only []; rw [PtGraph.forgetSuccs2_length]; exact hv)
    refine ⟨PtGraph.forgetRun g v, _, hforget, hpop, ?_⟩
    rw [PtGraph.size, PtGraph.size]
    simp only [PtGraph.forgetRun, List.length_set]

theorem C7_witness :
    ∃ g1 g2, gEdge.forget 1 = some g1 ∧ g1.new_vertex = some (1, g2) ∧
      g2.size = gEdge.size :=
  (C7_new_vertex gEdge).2.2 1 (by decide) (by decide)

/-- C6: `set_edge(x, w, y)` behaves exactly like `add_edge` when the edge
is absent and otherwise overwrites the stored weight in place without
changing `edge_count`; two consecutive `set_edge` calls on the same edge
leave `edge_count` at its value after the first call and the stored weight
at the second value. -/
theorem C6_set_edge {Wt : Type} (g : PtGraph Wt) (s : Nat) (w1 w2 : Wt) (d : Nat)
    (hs : s < g._succs.length) (hd : d < g._preds.length) :
    (g.elem s d = false → g.set_edge s w1 d = g.add_edge s w1 d) ∧
    (g.elem s d = true → ∃ g', g.set_edge s w1 d = some g' ∧
      g'.edge_count = g.edge_count ∧ g'.edge_val s d = some w1) ∧
    (∀ g1, g.set_edge s w1 d = some g1 →
      ∃ g2, g1.set_edge s w2 d = some g2 ∧
        g2.edge_count = g1.edge_count ∧ g2.edge_val s d = some w2) := by
  refine ⟨?_, ?_, ?_⟩
  · intro hne
    rw [PtGraph.set_edge, if_pos hs, if_neg (by rw [hne]; simp)]
  · intro helem
    refine ⟨_, set_edge_overwrite g s w1 d hs helem, rfl, ?_⟩
    rw [PtGraph.edge_val]
    simp only []
    rw [getD_set_self _ _ _ _ hs, mapLookup_mapInsert_self]
  · intro g1 h1
    have hg1 : g1._succs.getD s [] = mapInsert d w1 (g._succs.getD s [])
        ∧ g1._succs.length = g._succs.length := by
      rw [PtGraph.set_edge, if_pos hs] at h1
      split at h1
      case isTrue =>
        cases h1
        exact ⟨getD_set_self _ _ _ _ hs, by simp⟩
      case isFalse =>
        rw [add_edge_eq g s w1 d hs hd] at h1
        cases h1
        exact ⟨getD_set_self _ _ _ _ hs, by simp⟩
    have hs1 : s < g1._succs.length := by
      rw [hg1.2]
      exact hs
    have helem1 : g1.elem s d = true := by
      rw [PtGraph.elem, hg1.1, mapMem, mapLookup_mapInsert_self]
      rfl
    refine ⟨_, set_edge_overwrite g1 s w2 d hs1 helem1, rfl, ?_⟩
    rw [PtGraph.edge_val]
    simp only []
    rw [getD_set_self _ _ _ _ hs1, mapLookup_mapInsert_self]

theorem C6_witness :
    ∃ g2, gEdge.set_edge 0 9 1 = some g2 ∧
      g2.edge_count = gEdge.edge_count ∧ g2.edge_val 0 1 = some 9 := by
  obtain ⟨g2, h1, h2, h3⟩ :=
    (C6_set_edge gTwo 0 5 9 1 (by decide) (by decide)).2.2 gEdge (by decide)
  exact ⟨g2, h1, h2, h3⟩

/-- C4: `update_edge(s, w, d, op)` merges onto an existing edge with
`op.apply` leaving `edge_count` unchanged; on a missing edge it adds the
edge with weight `w` when the default is not absorbing (incrementing
`edge_count`), and returns the state unchanged when the default is
absorbing. -/
theorem C4_update_edge {Wt : Type} (g : PtGraph Wt) (s : Nat) (w : Wt) (d : Nat)
    (op : MergeOp Wt) (hs : s < g._succs.length) (hd : d < g._preds.length) :
    (∀ w0, g.edge_val s d = some w0 →
      ∃ g', g.update_edge s w d op = some g' ∧
        g'.edge_val s d = some (op.apply w0 w) ∧
        g'.edge_count = g.edge_count) ∧
    (g.elem s d = false → op.default_is_absorbing = false →
      ∃ g', g.update_edge s w d op = some g' ∧
        g'.edge_val s d = some w ∧ g'.edge_count = g.edge_count + 1) ∧
    (g.elem s d = false → op.default_is_absorbing = true →
      g.update_edge s w d op = some g) := by
  refine ⟨?_, ?_, ?_⟩
  · intro w0 hev
    have helem : g.elem s d = true := by
      rw [PtGraph.elem, mapMem, ← PtGraph.edge_val, hev]
      rfl
    rw [PtGraph.update_edge, if_pos hs, if_pos helem, hev]
    refine ⟨_, rfl, ?_, rfl⟩
    rw [PtGraph.edge_val]
    simp only []
    rw [getD_set_self _ _ _ _ hs, mapLookup_mapInsert_self]
  · intro hne habs
    rw [PtGraph.update_edge, if_pos hs, if_neg (by rw [hne]; simp), habs]
    rw [if_neg (by simp)]
    rw [add_edge_eq g s w d hs hd]
    refine ⟨_, rfl, ?_, rfl⟩
    rw [PtGraph.edge_val]
    simp only []
    rw [getD_set_self _ _ _ _ hs, mapLookup_mapInsert_self]
  · intro hne habs
    rw [PtGraph.update_edge, if_pos hs, if_neg (by rw [hne]; simp), habs]
    rw [if_pos rfl]

theorem C4_witness :
    (∃ g', gEdge.update_edge 0 3 1 (MergeOp.mk Nat.add false) = some g' ∧
      g'.edge_val 0 1 = some (Nat.add 5 3) ∧ g'.edge_count = gEdge.edge_count) ∧
    (∃ g', gTwo.update_edge 0 3 1 (MergeOp.mk Nat.add false) = some g' ∧
      g'.edge_val 0 1 = some 3 ∧ g'.edge_count = gTwo.edge_count + 1) ∧
    gTwo.update_edge 0 3 1 (MergeOp.mk Nat.add true) = some gTwo :=
  ⟨(C4_update_edge gEdge 0 3 1 (MergeOp.mk Nat.add false) (by decide)
      (by decide)).1 5 (by decide),
   (C4_update_edge gTwo 0 3 1 (MergeOp.mk Nat.add false) (by decide)
      (by decide)).2.1 (by decide) rfl,
   (C4_update_edge gTwo 0 3 1 (MergeOp.mk Nat.add true) (by decide)
      (by decide)).2.2 (by decide) rfl⟩

/-- C3 as stated fails on a self-loop: in the reachable state `gLoop`,
vertex 0 is live with out-degree 1 and in-degree 1, but `forget(0)`
decreases `edge_count` from 1 to 0 — by 1, not by `d_out + d_in = 2` (the
single self-loop edge is removed, and counted, once). -/
theorem C3_counterexample :
    PtGraph.Reachable gLoop ∧
    gLoop.is_free.getD 0 false = false ∧
    (gLoop._succs.getD 0 []).length = 1 ∧
    (gLoop._preds.getD 0 []).length = 1 ∧
    gLoop.forget 0 = some gLoopF ∧
    gLoop.edge_count = 1 ∧ gLoopF.edge_count = 0 ∧
    ¬(gLoop.edge_count = gLoopF.edge_count + (gLoop._succs.getD 0 []).length
        + (gLoop._preds.getD 0 []).length) :=
  ⟨gLoop_reachable, by decide, by decide, by decide, by decide, by decide,
   by decide, by decide⟩

/-- C3 (amended): for every live vertex `v` with out-degree `d_out` and
in-degree `d_in`, `forget(v)` decreases `edge_count` by exactly
`d_out + d_in` when `v` has no self-loop and by `d_out + d_in - 1` when it
has one (each incident edge is removed, and counted, once); afterwards
`is_elem(v, y)` is false for every `y` and `is_elem(x, v)` is false for
every `x`; and calling `forget` on an already-free vertex is a no-op. -/
theorem C3_forget_amended {Wt : Type} (g : PtGraph Wt) (hr : PtGraph.Reachable g)
    (v : Nat) (hv : v < g._succs.length) :
    (g.is_free.getD v false = false →
      ∃ g', g.forget v = some g' ∧
        g.edge_count + (if g.elem v v = true then 1 else 0)
          = g'.edge_count + (g._succs.getD v []).length
            + (g._preds.getD v []).length ∧
        (∀ y, g'.elem v y = false) ∧
        (∀ x, g'.elem x v = false)) ∧
    (g.is_free.getD v false = true → g.forget v = some g) := by
  have hwf := PtGraph.wf_reachable g hr
  constructor
  · intro hlive
    have hforget : g.forget v = some (PtGraph.forgetRun g v) := by
      rw [PtGraph.forget, if_pos hv, if_neg (by rw [hlive]; simp)]
    refine ⟨_, hforget, ?_, ?_, ?_⟩
    · have hcnt := PtGraph.forget_count g hwf v hv
      have hc := hwf.count
      have hpv := PtGraph.forgetPv_eq g hwf v
      by_cases hself : g.elem v v = true
      · rw [if_pos hself]
        have hvp : v ∈ g._preds.getD v [] :=
          (hwf.sym v v).mp ((g.elem_iff_mem_keys v v).mp hself)
        have hlen := length_setRemove_add_one v (g._preds.getD v [])
          (nodup_of_pairwise_lt _ (hwf.sorted_p v)) hvp
        simp only [PtGraph.forgetRun]
        rw [hpv] at hcnt ⊢
        omega
      · rw [if_neg hself]
        have hself2 : g.elem v v = false := by
          revert hself
          cases g.elem v v <;> simp
        have hvp : v ∉ g._preds.getD v [] := by
          intro hc2
          rw [(g.elem_eq_false_iff v v)] at hself2
          exact hself2 ((hwf.sym v v).mpr hc2)
        have hnone := setRemove_of_not_mem v _ hvp
        simp only [PtGraph.forgetRun]
        rw [hpv] at hcnt ⊢
        rw [hnone] at hcnt ⊢
        omega
    · intro y
      rw [PtGraph.elem]
      simp only [PtGraph.forgetRun]
      rw [PtGraph.forgetSuccs2_getD g hwf v hv v, if_pos rfl]
      rfl
    · intro x
      rw [PtGraph.elem]
      simp only [PtGraph.forgetRun]
      rw [PtGraph.forgetSuccs2_getD g hwf v hv x]
      by_cases hxv : x = v
      · rw [if_pos hxv]
        rfl
      · rw [if_neg hxv]
        by_cases hxp : x ∈ setRemove v (g._preds.getD v [])
        · rw [if_pos hxp, mapMem, mapLookup_mapRemove_self]
          rfl
        · rw [if_neg hxp]
          refine (mapMem_eq_false_iff _ _).mpr ?_
          intro hc
          exact hxp ((mem_setRemove x v _).mpr ⟨(hwf.sym x v).mp hc, hxv⟩)
  · intro hfree
    rw [PtGraph.forget, if_pos hv, if_pos hfree]

theorem C3_witness :
    ∃ g', gEdge.forget 1 = some g' ∧
      gEdge.edge_count + (if gEdge.elem 1 1 = true then 1 else 0)
        = g'.edge_count + (gEdge._succs.getD 1 []).length
          + (gEdge._preds.getD 1 []).length ∧
      (∀ y, g'.elem 1 y = false) ∧ (∀ x, g'.elem x 1 = false) :=
  (C3_forget_amended gEdge gEdge_reachable 1 (by decide)).1 (by decide)

/-- C5: for every well-formed source graph `g`, `copy(g)` produces a graph
with the same vertex count that has an edge `(x, y)` with equal weight for
every edge of `g`, and no other edges. -/
theorem C5_copy {Wt : Type} (g : PtGraph Wt) (hwf : PtGraph.WF g) :
    ∃ g', PtGraph.copy g = some g' ∧
      g'.size = g.size ∧
      (∀ x y, g'.elem x y = g.elem x y) ∧
      (∀ x y, g.elem x y = true → g'.edge_val x y = g.edge_val x y) :=
  copy_spec g hwf

theorem C5_witness :
    ∃ g', PtGraph.copy gEdge = some g' ∧ g'.size = gEdge.size ∧
      (∀ x y, g'.elem x y = gEdge.elem x y) ∧
      (∀ x y, gEdge.elem x y = true → g'.edge_val x y = gEdge.edge_val x y) :=
  C5_copy gEdge (PtGraph.wf_reachable gEdge gEdge_reachable)

end PtGraphModel
